import Mathlib

/-!
Verification of the linepy realtime-client core against its specification.

Shallow embedding of the Python sources:
  - `src/linepy/thrift/__init__.py` (compact/binary Thrift codec),
  - `src/linepy/push/conn.py` and `src/linepy/push/data.py` (LEGY push frames),
  - `src/linepy/polling.py` (per-chat fetch workers),
  - `src/linepy/storage.py` (file-backed key/value store),
  - `src/linepy/base.py` / `src/linepy/config.py` (token refresh, devices),
  - `src/linepy/login.py` (QR / PIN long-poll waits).

Python integers are modelled as `Int` (they are unbounded), byte strings as
`List Nat` with entries below 256, and fallible code returns `Option`.
-/

namespace Linepy

/-! ## Python integer primitives

Python's bitwise operators act on unbounded integers in infinite
two's-complement representation. -/

/-- Bitwise xor of unbounded Python integers (infinite two's complement). -/
def pyXor : Int → Int → Int
  | .ofNat m, .ofNat n => .ofNat (m ^^^ n)
  | .ofNat m, .negSucc n => .negSucc (m ^^^ n)
  | .negSucc m, .ofNat n => .negSucc (m ^^^ n)
  | .negSucc m, .negSucc n => .ofNat (m ^^^ n)

theorem pyXor_zero (n : Int) : pyXor n 0 = n := by
  cases n <;> simp [pyXor]

theorem pyXor_neg_one (m : Nat) : pyXor (Int.ofNat m) (-1) = Int.negSucc m := by
  show pyXor (Int.ofNat m) (Int.negSucc 0) = Int.negSucc m
  simp [pyXor]

theorem pyXor_negSucc_neg_one (m : Nat) : pyXor (Int.negSucc m) (-1) = Int.ofNat m := by
  show pyXor (Int.negSucc m) (Int.negSucc 0) = Int.ofNat m
  simp [pyXor]

/-- Python's floor-division right shift by 63 on an unbounded integer. -/
def pyShr63 (n : Int) : Int := n >>> (63 : Nat)

theorem pyShr63_ofNat (m : Nat) : pyShr63 (Int.ofNat m) = Int.ofNat (m >>> 63) := rfl

theorem pyShr63_negSucc (m : Nat) : pyShr63 (Int.negSucc m) = Int.negSucc (m >>> 63) := rfl

/-! ## Thrift varint and zigzag codec

Source: `CompactWriter._write_varint` / `_write_zigzag` and
`CompactReader.read_varint` / `read_zigzag` in `src/linepy/thrift/__init__.py`.
-/

/-- Fuelled helper for `writeVarint`; `n` itself always bounds the number of
iterations of the source loop, so the fuel branch is never reached. -/
def writeVarintF : Nat → Nat → List Nat
  | 0, n => [n % 128]
  | f + 1, n => if n < 128 then [n] else (n % 128 + 128) :: writeVarintF f (n / 128)

/-- Embeds `CompactWriter._write_varint`: the loop emits `n & 0x7F`, shifts `n` right
by 7 and sets the continuation bit 0x80 while bits remain. -/
def writeVarint (n : Nat) : List Nat := writeVarintF n n

theorem writeVarintF_congr : ∀ f g n, n ≤ f → n ≤ g → writeVarintF f n = writeVarintF g n := by
  intro f
  induction f with
  | zero =>
      intro g n hf hg
      interval_cases n
      cases g with
      | zero => rfl
      | succ g => simp [writeVarintF]
  | succ f ih =>
      intro g n hf hg
      cases g with
      | zero =>
          interval_cases n
          simp [writeVarintF]
      | succ g =>
          rw [writeVarintF, writeVarintF]
          split
          · rfl
          · have hd : n / 128 ≤ f := by omega
            have hd2 : n / 128 ≤ g := by omega
            rw [ih g (n / 128) hd hd2]

/-- The natural recurrence of the source loop. -/
theorem writeVarint_eq (n : Nat) :
    writeVarint n = if n < 128 then [n] else (n % 128 + 128) :: writeVarint (n / 128) := by
  rw [writeVarint, writeVarint]
  cases n with
  | zero => simp [writeVarintF]
  | succ m =>
      rw [writeVarintF]
      split
      · rfl
      · have h1 : (m + 1) / 128 ≤ m := by omega
        rw [writeVarintF_congr m ((m + 1) / 128) ((m + 1) / 128) h1 le_rfl]

/-- Embeds `CompactReader.read_varint`: accumulates the low 7 bits of each byte in
little-endian order until a byte without the continuation bit; reading past
the end of the buffer raises `IndexError`, modelled as `none`. -/
def readVarint : List Nat → Option (Nat × List Nat)
  | [] => none
  | b :: rest =>
    if b >>> 7 = 0 then some (b &&& 127, rest)
    else (readVarint rest).map fun p => ((b &&& 127) + p.1 * 128, p.2)

theorem and_127_eq_mod (n : Nat) : n &&& 127 = n % 128 := by
  have h := Nat.and_pow_two_sub_one_eq_mod n 7
  norm_num at h
  exact h

theorem shiftRight_7_eq_div (n : Nat) : n >>> 7 = n / 128 := by
  have h := Nat.shiftRight_eq_div_pow n 7
  norm_num at h
  exact h

theorem readVarint_writeVarint (n : Nat) (rest : List Nat) :
    readVarint (writeVarint n ++ rest) = some (n, rest) := by
  induction n using Nat.strong_induction_on with
  | _ n ih =>
      rw [writeVarint_eq]
      by_cases h : n < 128
      · rw [if_pos h]
        have h7 : n >>> 7 = 0 := by rw [shiftRight_7_eq_div]; omega
        have hm : n &&& 127 = n := by rw [and_127_eq_mod]; omega
        simp [readVarint, h7, hm]
      · rw [if_neg h]
        have h7 : ¬ (n % 128 + 128) >>> 7 = 0 := by rw [shiftRight_7_eq_div]; omega
        have hm : (n % 128 + 128) &&& 127 = n % 128 := by rw [and_127_eq_mod]; omega
        simp only [List.cons_append, readVarint, if_neg h7, hm]
        rw [show (writeVarint (n / 128)).append rest = writeVarint (n / 128) ++ rest from rfl,
          ih (n / 128) (by omega)]
        simp only [Option.map_some', Option.some.injEq, Prod.mk.injEq]
        exact ⟨by omega, trivial⟩

theorem writeVarint_ne_nil (n : Nat) : writeVarint n ≠ [] := by
  rw [writeVarint_eq]
  split <;> simp

/-- Embeds `CompactWriter._write_zigzag`: writes the varint of `(n << 1) ^ (n >> 63)`
(Python `<<`/`>>` are exact multiplication and floor shift on unbounded ints).
A negative xor result would make the Python varint loop diverge; this is
modelled as `none`. -/
def writeZigzag (n : Int) : Option (List Nat) :=
  if 0 ≤ pyXor (n * 2) (pyShr63 n) then
    some (writeVarint (pyXor (n * 2) (pyShr63 n)).toNat)
  else none

/-- Embeds `CompactReader.read_zigzag`: reads a varint `n` and returns
`(n >> 1) ^ -(n & 1)`. -/
def readZigzag (data : List Nat) : Option (Int × List Nat) :=
  (readVarint data).map fun p =>
    (pyXor (Int.ofNat (p.1 >>> 1)) (-(Int.ofNat (p.1 &&& 1))), p.2)

theorem zigzag_encode_nonneg (n : Int) (hlo : -(2 ^ 63) ≤ n) (hhi : n < 2 ^ 63) :
    pyXor (n * 2) (pyShr63 n) = if 0 ≤ n then n * 2 else -(n * 2) - 1 := by
  cases n with
  | ofNat m =>
      have hm : m < 2 ^ 63 := by
        rw [Int.ofNat_eq_natCast] at hhi; omega
      have h0 : m >>> 63 = 0 := by
        rw [Nat.shiftRight_eq_div_pow]
        exact Nat.div_eq_of_lt hm
      rw [pyShr63_ofNat, h0]
      show pyXor (Int.ofNat m * 2) 0 = _
      rw [pyXor_zero,
        if_pos (by rw [Int.ofNat_eq_natCast]; omega : (0 : Int) ≤ Int.ofNat m)]
  | negSucc m =>
      have hneg : ¬ (0 : Int) ≤ Int.negSucc m := by
        rw [Int.negSucc_eq]; omega
      have hm : m < 2 ^ 63 := by
        rw [Int.negSucc_eq] at hlo; omega
      have h0 : m >>> 63 = 0 := by
        rw [Nat.shiftRight_eq_div_pow]
        exact Nat.div_eq_of_lt hm
      have hmul : Int.negSucc m * 2 = Int.negSucc (2 * m + 1) := by
        rw [Int.negSucc_eq, Int.negSucc_eq]; push_cast; ring
      rw [pyShr63_negSucc, h0, hmul]
      show pyXor (Int.negSucc (2 * m + 1)) (-1) = _
      rw [pyXor_negSucc_neg_one, if_neg hneg, Int.negSucc_eq,
        Int.ofNat_eq_natCast]
      push_cast
      omega

theorem zigzag_decode_eq (m : Nat) :
    pyXor (Int.ofNat (m >>> 1)) (-(Int.ofNat (m &&& 1))) =
      if m % 2 = 0 then (Int.ofNat (m / 2)) else -(Int.ofNat (m / 2)) - 1 := by
  have h1 : m >>> 1 = m / 2 := by
    have := Nat.shiftRight_eq_div_pow m 1
    norm_num at this
    exact this
  have h2 : m &&& 1 = m % 2 := Nat.and_one_is_mod m
  rw [h1, h2]
  rcases Nat.mod_two_eq_zero_or_one m with h | h
  · rw [if_pos h, h]
    show pyXor (Int.ofNat (m / 2)) (-0) = _
    rw [neg_zero, pyXor_zero]
  · rw [if_neg (by omega), h]
    show pyXor (Int.ofNat (m / 2)) (-1) = _
    rw [pyXor_neg_one, Int.negSucc_eq, Int.ofNat_eq_natCast]
    omega

/-- Composite: zigzag round-trip for any `n` in the signed 64-bit range. -/
theorem zigzag_roundtrip (n : Int) (hlo : -(2 ^ 63) ≤ n) (hhi : n < 2 ^ 63) :
    ∃ bs, writeZigzag n = some bs ∧ ∀ rest, readZigzag (bs ++ rest) = some (n, rest) := by
  have henc := zigzag_encode_nonneg n hlo hhi
  have hpos : (0 : Int) ≤ pyXor (n * 2) (pyShr63 n) := by
    rw [henc]; split <;> omega
  refine ⟨writeVarint (pyXor (n * 2) (pyShr63 n)).toNat, ?_, ?_⟩
  · rw [writeZigzag, if_pos hpos]
  · intro rest
    rw [readZigzag, readVarint_writeVarint, Option.map_some']
    rw [zigzag_decode_eq]
    rcases le_or_lt 0 n with hn | hn
    · rw [henc, if_pos hn]
      have hmod : (n * 2).toNat % 2 = 0 := by omega
      rw [if_pos hmod]
      simp only [Option.some.injEq, Prod.mk.injEq, Int.ofNat_eq_natCast]
      exact ⟨by omega, trivial⟩
    · rw [henc, if_neg (by omega : ¬ 0 ≤ n)]
      have hmod : (-(n * 2) - 1).toNat % 2 = 1 := by omega
      rw [if_neg (by omega)]
      simp only [Option.some.injEq, Prod.mk.injEq, Int.ofNat_eq_natCast]
      exact ⟨by omega, trivial⟩

end Linepy

/-- C10: for every integer in the signed 64-bit range, the compact writer's
zig-zag varint encoder (`CompactWriter._write_zigzag`) followed by the compact
reader's decoder (`CompactReader.read_zigzag`) returns exactly the original
integer, with the remaining input untouched. -/
theorem C10_zigzag_varint_roundtrip (n : Int)
    (hlo : -(2 ^ 63) ≤ n) (hhi : n < 2 ^ 63) :
    ∃ bs, Linepy.writeZigzag n = some bs ∧
      ∀ rest, Linepy.readZigzag (bs ++ rest) = some (n, rest) :=
  Linepy.zigzag_roundtrip n hlo hhi

/-- Witness for C10 at the concrete input `n = -3`: the hypotheses hold and
the round-trip applies. -/
theorem C10_zigzag_varint_roundtrip_witness :
    ∃ bs, Linepy.writeZigzag (-3) = some bs ∧
      ∀ rest, Linepy.readZigzag (bs ++ rest) = some (-3, rest) :=
  C10_zigzag_varint_roundtrip (-3) (by norm_num) (by norm_num)

namespace Linepy

/-! ## Thrift type codes and byte helpers

Source: classes `TType` and `CompactType` and the `ctype_map` /
`ctype_to_ttype` dictionaries in `src/linepy/thrift/__init__.py`.
TType codes: STOP 0, BOOL 2, BYTE 3, DOUBLE 4, I16 6, I32 8, I64 10,
STRING 11, STRUCT 12, MAP 13, SET 14, LIST 15.
-/

/-- The `ctype_map` of `write_field_begin` and `write_list_begin`
(identical dictionaries); unknown types pass through. -/
def ctypeOf (t : Nat) : Nat :=
  if t = 2 then 1 else if t = 3 then 3 else if t = 6 then 4
  else if t = 8 then 5 else if t = 10 then 6 else if t = 4 then 7
  else if t = 11 then 8 else if t = 12 then 12 else if t = 13 then 11
  else if t = 14 then 10 else if t = 15 then 9 else t

/-- The `ctype_map` of `write_map_begin` (no MAP/SET/LIST entries). -/
def ctypeMapKV (t : Nat) : Nat :=
  if t = 2 then 1 else if t = 3 then 3 else if t = 6 then 4
  else if t = 8 then 5 else if t = 10 then 6 else if t = 4 then 7
  else if t = 11 then 8 else if t = 12 then 12 else t

/-- The `ctype_to_ttype` dictionary of `read_field_begin`. -/
def ctypeToT (c : Nat) : Nat :=
  if c = 0 then 0 else if c = 1 then 2 else if c = 2 then 2
  else if c = 3 then 3 else if c = 4 then 6 else if c = 5 then 8
  else if c = 6 then 10 else if c = 7 then 4 else if c = 8 then 11
  else if c = 9 then 15 else if c = 10 then 14 else if c = 11 then 13
  else if c = 12 then 12 else c

/-- The `ctype_to_ttype` dictionary of `read_collection_begin`
(no STOP/LIST/SET/MAP entries). -/
def collCtypeToT (c : Nat) : Nat :=
  if c = 1 then 2 else if c = 2 then 2 else if c = 3 then 3
  else if c = 4 then 6 else if c = 5 then 8 else if c = 6 then 10
  else if c = 7 then 4 else if c = 8 then 11 else if c = 12 then 12 else c

/-- The `ctype_to_ttype` dictionary of `read_map_begin`
(it has a TRUE entry but, unlike the others, no FALSE entry). -/
def mapCtypeToT (c : Nat) : Nat :=
  if c = 1 then 2 else if c = 3 then 3 else if c = 4 then 6
  else if c = 5 then 8 else if c = 6 then 10 else if c = 7 then 4
  else if c = 8 then 11 else if c = 12 then 12 else c

/-- Python `n & 0xFF` on an unbounded int (used by `write_byte`). -/
def pyByte (n : Int) : Nat := (n % 256).toNat

/-- Python `bytes.decode("utf-8")` success predicate: standard UTF-8 with
the surrogate range and overlong encodings rejected and a U+10FFFF cap. -/
def validUtf8 : List Nat → Bool
  | [] => true
  | b :: rest =>
    if b < 0x80 then validUtf8 rest
    else if b < 0xC2 then false
    else if b ≤ 0xDF then
      match rest with
      | c :: r => decide (0x80 ≤ c ∧ c ≤ 0xBF) && validUtf8 r
      | [] => false
    else if b ≤ 0xEF then
      match rest with
      | c1 :: c2 :: r =>
        decide ((if b = 0xE0 then 0xA0 else 0x80) ≤ c1 ∧
          c1 ≤ (if b = 0xED then 0x9F else 0xBF)) &&
        decide (0x80 ≤ c2 ∧ c2 ≤ 0xBF) && validUtf8 r
      | _ => false
    else if b ≤ 0xF4 then
      match rest with
      | c1 :: c2 :: c3 :: r =>
        decide ((if b = 0xF0 then 0x90 else 0x80) ≤ c1 ∧
          c1 ≤ (if b = 0xF4 then 0x8F else 0xBF)) &&
        decide (0x80 ≤ c2 ∧ c2 ≤ 0xBF) && decide (0x80 ≤ c3 ∧ c3 ≤ 0xBF) &&
        validUtf8 r
      | _ => false
    else false

/-! ## Value universe

Writer-side values mirror the linejs-style params accepted by
`_write_struct` / `_write_value`: a struct is a list of
`[ftype, fid, value]` triples, a map field is the `[ktype, vtype, dict]`
triple, a list/set field is the `[etype, list]` pair.  Python floats are
modelled by their 8 little-endian `struct.pack("<d", ·)` bytes. -/

mutual
inductive WVal where
  | wBool (b : Bool)
  | wInt (n : Int)
  | wDouble (bits : List Nat)
  | wStr (bs : List Nat)
  | wBytes (bs : List Nat)
  | wStruct (fs : WFields)
  | wMap (ktype vtype : Nat) (es : WEntries)
  | wColl (etype : Nat) (es : WElems)
  | wNone
  deriving DecidableEq
inductive WFields where
  | nil
  | cons (ftype fid : Nat) (v : WVal) (rest : WFields)
  deriving DecidableEq
inductive WEntries where
  | nil
  | cons (k v : WVal) (rest : WEntries)
  deriving DecidableEq
inductive WElems where
  | nil
  | cons (v : WVal) (rest : WElems)
  deriving DecidableEq
end

/-- Python truthiness of a writer value (`if not value: return` checks). -/
def pyTruthy : WVal → Bool
  | .wBool b => b
  | .wInt n => n != 0
  | .wDouble bits =>
      bits != [0, 0, 0, 0, 0, 0, 0, 0] && bits != [0, 0, 0, 0, 0, 0, 0, 0x80]
  | .wStr bs => bs != []
  | .wBytes bs => bs != []
  | .wStruct fs => fs != .nil
  | .wMap _ _ _ => true
  | .wColl _ _ => true
  | .wNone => false

/-- Python `int()`-compatible view used by the integer writers (`bool` is an
`int` subclass in Python; other types raise, modelled as `none`). -/
def pyToInt : WVal → Option Int
  | .wInt n => some n
  | .wBool b => some (if b then 1 else 0)
  | _ => none

def countE : WEntries → Nat
  | .nil => 0
  | .cons _ _ r => countE r + 1

def countL : WElems → Nat
  | .nil => 0
  | .cons _ r => countL r + 1

/-! ## Compact writer

Source: class `CompactWriter` and the free functions `_write_struct`,
`_write_value`, `_write_value_raw` in `src/linepy/thrift/__init__.py`. -/

/-- Embeds `CompactWriter.write_field_begin` (also the header part of `write_bool`):
short form `(delta << 4) | ctype` when `0 < fid - last_fid <= 15`, otherwise
the ctype byte followed by the zigzag varint of the field id. -/
def fieldHeader (ct fid last : Nat) : Option (List Nat) :=
  let delta : Int := (fid : Int) - (last : Int)
  if 0 < delta ∧ delta ≤ 15 then some [delta.toNat * 16 + ct]
  else (writeZigzag (fid : Int)).map fun zz => ct :: zz

/-- Embeds `CompactWriter.write_binary`: varint length prefix followed by the bytes
(strings are written as their UTF-8 encoding). -/
def writeBinary (bs : List Nat) : List Nat := writeVarint bs.length ++ bs

/-- Embeds `CompactWriter.write_list_begin`: 4-bit size with varint overflow. -/
def listBegin (et n : Nat) : List Nat :=
  if n ≤ 14 then [n * 16 + ctypeOf et]
  else (240 + ctypeOf et) :: writeVarint n

/-- Embeds `CompactWriter.write_map_begin`: a single zero byte for an empty map,
otherwise varint size and the packed key/value compact types. -/
def mapBegin (kt vt n : Nat) : List Nat :=
  if n = 0 then [0]
  else writeVarint n ++ [ctypeMapKV kt * 16 + ctypeMapKV vt]

mutual
/-- Embeds `_write_value`: write one struct field (field header plus payload) for the
declared type `t`; returns the emitted bytes together with the writer's new
`_last_fid`.  `none` models a raised Python exception (type/value mismatch or
a diverging varint). -/
def writeField (t fid last : Nat) : WVal → Option (List Nat × Nat)
  | .wNone => some ([], last)
  | v =>
    if t = 2 then
      (fieldHeader (if pyTruthy v then 1 else 2) fid last).map fun h => (h, fid)
    else if t = 3 then do
      let n ← pyToInt v
      let h ← fieldHeader (ctypeOf t) fid last
      some (h ++ [pyByte n], fid)
    else if t = 4 then
      match v with
      | .wDouble bits => (fieldHeader (ctypeOf t) fid last).map fun h => (h ++ bits, fid)
      | _ => none
    else if t = 6 ∨ t = 8 ∨ t = 10 then do
      let n ← pyToInt v
      let h ← fieldHeader (ctypeOf t) fid last
      let zz ← writeZigzag n
      some (h ++ zz, fid)
    else if t = 11 then
      match v with
      | .wStr bs => (fieldHeader (ctypeOf t) fid last).map fun h => (h ++ writeBinary bs, fid)
      | .wBytes bs => (fieldHeader (ctypeOf t) fid last).map fun h => (h ++ writeBinary bs, fid)
      | _ => none
    else if t = 12 then
      if pyTruthy v then
        match v with
        | .wStruct fs => do
            let h ← fieldHeader (ctypeOf t) fid last
            let body ← writeFieldsGo 0 fs
            some (h ++ body, fid)
        | _ => do
            let h ← fieldHeader (ctypeOf t) fid last
            some (h ++ [0], fid)
      else some ([], last)
    else if t = 13 then
      match v with
      | .wMap kt vt es => do
          let h ← fieldHeader (ctypeOf t) fid last
          let body ← writeEntries kt vt es
          some (h ++ mapBegin kt vt (countE es) ++ body, fid)
      | _ => none
    else if t = 14 ∨ t = 15 then
      match v with
      | .wColl et es => do
          let h ← fieldHeader (ctypeOf t) fid last
          let body ← writeElems et es
          some (h ++ listBegin et (countL es) ++ body, fid)
      | _ => none
    else some ([], last)

/-- Embeds `_write_struct` over the list-of-triples params: writes every field and
terminates the struct with the stop byte, starting from `_last_fid = 0`
inside (the caller's `_last_fid` is saved and restored by the source). -/
def writeFieldsGo (last : Nat) : WFields → Option (List Nat)
  | .nil => some [0]
  | .cons t fid v rest => do
      let (bs, last2) ← writeField t fid last v
      let more ← writeFieldsGo last2 rest
      some (bs ++ more)

/-- Embeds `_write_value_raw`: write a collection element without a field header.
`None` elements and SET/LIST/MAP element types silently write nothing. -/
def writeRaw (t : Nat) : WVal → Option (List Nat)
  | .wNone => some []
  | v =>
    if t = 2 then some [if pyTruthy v then 1 else 0]
    else if t = 3 then (pyToInt v).map fun n => [pyByte n]
    else if t = 4 then
      match v with
      | .wDouble bits => some bits
      | _ => none
    else if t = 6 ∨ t = 8 ∨ t = 10 then do
      let n ← pyToInt v
      writeZigzag n
    else if t = 11 then
      match v with
      | .wStr bs => some (writeBinary bs)
      | .wBytes bs => some (writeBinary bs)
      | _ => none
    else if t = 12 then
      match v with
      | .wStruct fs => writeFieldsGo 0 fs
      | _ => some [0]
    else some []

def writeEntries (kt vt : Nat) : WEntries → Option (List Nat)
  | .nil => some []
  | .cons k v rest => do
      let kb ← writeRaw kt k
      let vb ← writeRaw vt v
      let more ← writeEntries kt vt rest
      some (kb ++ vb ++ more)

def writeElems (et : Nat) : WElems → Option (List Nat)
  | .nil => some []
  | .cons v rest => do
      let vb ← writeRaw et v
      let more ← writeElems et rest
      some (vb ++ more)
end

/-- Embeds `_write_struct` as called at the top level of a request body. -/
def writeStructBody (fs : WFields) : Option (List Nat) := writeFieldsGo 0 fs

/-! ## Compact reader

Source: class `CompactReader` in `src/linepy/thrift/__init__.py`.  The reader
state is the remaining input together with `_bool_value` (the last inline
boolean seen by `read_field_begin`); `_last_fid` is passed explicitly.  The
recursive value readers take a fuel argument decremented at every call; a
`none` from exhausted fuel never occurs on writer-produced input (the
round-trip theorems supply sufficient fuel). -/

/-- Values produced by `CompactReader`: Python `None`, bool (possibly the
reader's unset `_bool_value`), int, float (as its 8 packed bytes), str,
bytes, and dicts/lists for structs, maps and collections. -/
inductive RVal where
  | rNone
  | rBool (b : Option Bool)
  | rInt (n : Int)
  | rDouble (bits : List Nat)
  | rStr (bs : List Nat)
  | rBytes (bs : List Nat)
  | rStruct (fs : List (Int × RVal))
  | rMap (es : List (RVal × RVal))
  | rList (xs : List RVal)

/-- Reader state: remaining bytes and `_bool_value`. -/
abbrev ReaderSt := List Nat × Option Bool

/-- Python `result[fid] = v` on an insertion-ordered dict with int keys. -/
def updateIntKey : List (Int × RVal) → Int → RVal → List (Int × RVal)
  | [], k, v => [(k, v)]
  | (k0, v0) :: rest, k, v =>
    if k0 = k then (k0, v) :: rest else (k0, v0) :: updateIntKey rest k v

/-- Embeds IEEE-754 double-precision NaN detection on the 8 packed
big-endian bytes: exponent bits all ones with a nonzero mantissa. -/
def isNanBytes : List Nat → Bool
  | [b0, b1, b2, b3, b4, b5, b6, b7] =>
    (b0 &&& 0x7F) == 0x7F && (b1 &&& 0xF0) == 0xF0 &&
      !((b1 &&& 0x0F) == 0 && b2 == 0 && b3 == 0 && b4 == 0 && b5 == 0 &&
        b6 == 0 && b7 == 0)
  | _ => false

/-- The two zero bit patterns, `+0.0` and `-0.0`. -/
def isZeroBytes (bs : List Nat) : Bool :=
  bs == [0, 0, 0, 0, 0, 0, 0, 0] || bs == [0x80, 0, 0, 0, 0, 0, 0, 0]

/-- Embeds Python `==` on two floats given by their 8 packed big-endian
bytes, as dict insertion compares freshly unpacked keys: `NaN` equals
nothing (each unpacked key is also a fresh object, so the dict's identity
fast path never fires), `+0.0 == -0.0` despite distinct bits, and any
other pair of doubles is equal exactly when the bit patterns coincide. -/
def doubleKeyBeq (a b : List Nat) : Bool :=
  if isNanBytes a || isNanBytes b then false
  else a == b || (isZeroBytes a && isZeroBytes b)

/-- Equality of hashable decoded values, as Python `==` compares dict keys
(containers are unhashable and never get this far; keys of one map are all
read with the same ctype, so cross-type numeric corners such as
`bool == int` or `int == float` cannot arise; doubles compare numerically
via `doubleKeyBeq`, not by bit pattern). -/
def rvalKeyBeq : RVal → RVal → Bool
  | .rNone, .rNone => true
  | .rBool a, .rBool b => a == b
  | .rInt a, .rInt b => a == b
  | .rDouble a, .rDouble b => doubleKeyBeq a b
  | .rStr a, .rStr b => a == b
  | .rBytes a, .rBytes b => a == b
  | _, _ => false

/-- Hashability of a decoded value: Python raises `TypeError` when a dict,
list or set is used as a dict key. -/
def rvalHashable : RVal → Bool
  | .rStruct _ => false
  | .rMap _ => false
  | .rList _ => false
  | _ => true

/-- Python `result[key] = val` on an insertion-ordered dict with decoded-value
keys. -/
def updateRValKey : List (RVal × RVal) → RVal → RVal → List (RVal × RVal)
  | [], k, v => [(k, v)]
  | (k0, v0) :: rest, k, v =>
    if rvalKeyBeq k0 k then (k0, v) :: rest else (k0, v0) :: updateRValKey rest k v

/-- Embeds `CompactReader.read_field_begin`: end of data or a zero byte yield STOP;
otherwise the nibble-packed delta/ctype byte, with the zigzag field id
fallback when the delta nibble is zero, and `_bool_value` set for the two
inline boolean compact types. -/
def readFieldBegin (last : Int) : ReaderSt → Option (Nat × Int × ReaderSt)
  | ([], bv) => some (0, 0, ([], bv))
  | (b :: rest, bv) =>
    if b = 0 then some (0, 0, (rest, bv))
    else
      let delta := b >>> 4
      let ct := b &&& 15
      let bv2 := if ct = 1 then some true else if ct = 2 then some false else bv
      if delta = 0 then
        (readZigzag rest).map fun p => (ctypeToT ct, p.1, (p.2, bv2))
      else
        some (ctypeToT ct, last + (delta : Int), (rest, bv2))

/-- Embeds `CompactReader.read_collection_begin`. -/
def readCollBegin : ReaderSt → Option (Nat × Nat × ReaderSt)
  | ([], _) => none
  | (b :: rest, bv) =>
    let size := b >>> 4
    let ct := b &&& 15
    if size = 15 then
      (readVarint rest).map fun p => (collCtypeToT ct, p.1, (p.2, bv))
    else some (collCtypeToT ct, size, (rest, bv))

/-- Embeds `CompactReader.read_map_begin`. -/
def readMapBegin : ReaderSt → Option (Nat × Nat × Nat × ReaderSt)
  | (data, bv) => do
    let (size, r) ← readVarint data
    if size = 0 then some (0, 0, 0, (r, bv))
    else
      match r with
      | tb :: r2 => some (mapCtypeToT (tb >>> 4), mapCtypeToT (tb &&& 15), size, (r2, bv))
      | [] => none

/-- Embeds `CompactReader.read_byte`: one byte, sign-extended. -/
def readByte : ReaderSt → Option (RVal × ReaderSt)
  | ([], _) => none
  | (b :: rest, bv) =>
    some (.rInt (if b < 128 then (b : Int) else (b : Int) - 256), (rest, bv))

/-- Embeds `CompactReader.read_double`: `struct.unpack` needs exactly 8 bytes. -/
def readDouble : ReaderSt → Option (RVal × ReaderSt)
  | (data, bv) =>
    if 8 ≤ data.length then some (.rDouble (data.take 8), (data.drop 8, bv))
    else none

/-- Embeds `CompactReader.read_binary`: varint size, then that many bytes, decoded
to `str` when they are valid UTF-8 and kept as `bytes` otherwise. -/
def readBinary : ReaderSt → Option (RVal × ReaderSt)
  | (data, bv) => do
    let (size, r) ← readVarint data
    let bs := r.take size
    some (if validUtf8 bs then .rStr bs else .rBytes bs, (r.drop size, bv))

mutual
/-- Embeds `CompactReader.read_value`, with `read_map` / `read_list` inlined the way
the source composes them. -/
def readValue (fuel : Nat) (t : Nat) (st : ReaderSt) : Option (RVal × ReaderSt) :=
  match fuel with
  | 0 => none
  | fuel + 1 =>
    if t = 0 then some (.rNone, st)
    else if t = 2 then some (.rBool st.2, st)
    else if t = 3 then readByte st
    else if t = 4 then readDouble st
    else if t = 6 ∨ t = 8 ∨ t = 10 then
      (readZigzag st.1).map fun p => (.rInt p.1, (p.2, st.2))
    else if t = 11 then readBinary st
    else if t = 12 then
      (readStructLoop fuel 0 [] st).map fun p => (.rStruct p.1, p.2)
    else if t = 13 then do
      let (kt, vt, size, st2) ← readMapBegin st
      let (es, st3) ← readMapEntries fuel kt vt size [] st2
      some (.rMap es, st3)
    else if t = 14 ∨ t = 15 then do
      let (et, size, st2) ← readCollBegin st
      let (xs, st3) ← readListElems fuel et size st2
      some (.rList xs, st3)
    else none
  termination_by structural fuel

/-- Embeds `CompactReader.read_struct`: fields until STOP, restarting `_last_fid`
at 0 (the caller's value is saved and restored by the source). -/
def readStructLoop (fuel : Nat) (last : Int) (acc : List (Int × RVal))
    (st : ReaderSt) : Option (List (Int × RVal) × ReaderSt) :=
  match fuel with
  | 0 => none
  | fuel + 1 => do
      let (ft, fid, st2) ← readFieldBegin last st
      if ft = 0 then some (acc, st2)
      else do
        let (v, st3) ← readValue fuel ft st2
        readStructLoop fuel fid (updateIntKey acc fid v) st3
  termination_by structural fuel

/-- The loop body of `CompactReader.read_map`. -/
def readMapEntries (fuel : Nat) (kt vt size : Nat) (acc : List (RVal × RVal))
    (st : ReaderSt) : Option (List (RVal × RVal) × ReaderSt) :=
  match fuel with
  | 0 => none
  | fuel + 1 =>
      match size with
      | 0 => some (acc, st)
      | s + 1 => do
          let (k, st2) ← readValue fuel kt st
          let (v, st3) ← readValue fuel vt st2
          if rvalHashable k then
            readMapEntries fuel kt vt s (updateRValKey acc k v) st3
          else none
  termination_by structural fuel

/-- The loop body of `CompactReader.read_list`. -/
def readListElems (fuel : Nat) (et size : Nat) (st : ReaderSt) :
    Option (List RVal × ReaderSt) :=
  match fuel with
  | 0 => none
  | fuel + 1 =>
      match size with
      | 0 => some ([], st)
      | s + 1 => do
          let (v, st2) ← readValue fuel et st
          let (xs, st3) ← readListElems fuel et s st2
          some (v :: xs, st3)
  termination_by structural fuel
end

/-! ## Expected decode of writer values and the regular fragment -/

mutual
/-- The decoded form of a writer value: integers and doubles come back as
written, strings stay strings, non-UTF-8 bytes stay bytes, struct triples
become the field-id keyed dict, map/list payloads become dict/list. -/
def toRVal : WVal → RVal
  | .wBool b => .rBool (some b)
  | .wInt n => .rInt n
  | .wDouble bits => .rDouble bits
  | .wStr bs => .rStr bs
  | .wBytes bs => .rBytes bs
  | .wStruct fs => .rStruct (toRFields fs)
  | .wMap _ _ es => .rMap (toREntries es)
  | .wColl _ es => .rList (toRElems es)
  | .wNone => .rNone
def toRFields : WFields → List (Int × RVal)
  | .nil => []
  | .cons _ fid v r => ((fid : Int), toRVal v) :: toRFields r
def toREntries : WEntries → List (RVal × RVal)
  | .nil => []
  | .cons k v r => (toRVal k, toRVal v) :: toREntries r
def toRElems : WElems → List RVal
  | .nil => []
  | .cons v r => toRVal v :: toRElems r
end

mutual
/-- Reader fuel sufficient for a value encoded by the writer. -/
def weightV : WVal → Nat
  | .wStruct fs => 1 + weightF fs
  | .wMap _ _ es => 1 + weightE es
  | .wColl _ es => 1 + weightL es
  | _ => 1
def weightF : WFields → Nat
  | .nil => 1
  | .cons _ _ v r => 1 + weightV v + weightF r
def weightE : WEntries → Nat
  | .nil => 1
  | .cons k v r => 1 + weightV k + weightV v + weightE r
def weightL : WElems → Nat
  | .nil => 1
  | .cons v r => 1 + weightV v + weightL r
end

def fidList : WFields → List Nat
  | .nil => []
  | .cons _ fid _ r => fid :: fidList r

def keyRList : WEntries → List RVal
  | .nil => []
  | .cons k _ r => toRVal k :: keyRList r

/-- Pairwise distinctness of decoded map keys under Python key equality. -/
def keysDistinct : List RVal → Bool
  | [] => true
  | k :: r => r.all (fun k2 => !rvalKeyBeq k k2) && keysDistinct r

/-- Raw (collection-element) types that survive the round trip:
byte, i16/i32/i64, double, binary, struct.  Booleans are excluded because
`_write_value_raw` emits a raw byte that `read_value` never consumes, and
nested collections are excluded because `_write_value_raw` silently writes
nothing for them. -/
def rawTypeOk (t : Nat) : Bool :=
  t = 3 || t = 6 || t = 8 || t = 10 || t = 4 || t = 11 || t = 12

/-- Map key types additionally exclude structs: Python dict keys must be
hashable, so a struct-valued key raises at decode time. -/
def keyTypeOk (t : Nat) : Bool :=
  t = 3 || t = 6 || t = 8 || t = 10 || t = 4 || t = 11

mutual
/-- Regular collection-element values for a declared raw type. -/
def regularRaw (t : Nat) : WVal → Bool
  | .wInt n =>
      (t = 3 && decide (-128 ≤ n ∧ n ≤ 127)) ||
      ((t = 6 || t = 8 || t = 10) && decide (-(2 ^ 63) ≤ n ∧ n < 2 ^ 63))
  | .wDouble bits => t = 4 && bits.length = 8
  | .wStr bs => t = 11 && validUtf8 bs
  | .wBytes bs => t = 11 && !validUtf8 bs
  | .wStruct fs => t = 12 && regularFieldsAux fs && decide (fidList fs).Nodup
  | _ => false

/-- Regular struct fields: a well-typed value for the declared field type,
in-range integers, nonempty struct values (empty ones are dropped by the
writer), regular collection payloads. -/
def regularField (t fid : Nat) : WVal → Bool
  | .wBool _ => t = 2 && decide (fid < 2 ^ 63)
  | .wInt n =>
      decide (fid < 2 ^ 63) &&
      ((t = 3 && decide (-128 ≤ n ∧ n ≤ 127)) ||
       ((t = 6 || t = 8 || t = 10) && decide (-(2 ^ 63) ≤ n ∧ n < 2 ^ 63)))
  | .wDouble bits => t = 4 && decide (fid < 2 ^ 63) && bits.length = 8
  | .wStr bs => t = 11 && decide (fid < 2 ^ 63) && validUtf8 bs
  | .wBytes bs => t = 11 && decide (fid < 2 ^ 63) && !validUtf8 bs
  | .wStruct fs =>
      t = 12 && decide (fid < 2 ^ 63) && fs != .nil && regularFieldsAux fs &&
      decide (fidList fs).Nodup
  | .wMap kt vt es =>
      t = 13 && decide (fid < 2 ^ 63) && keyTypeOk kt && rawTypeOk vt &&
      regularEntries kt vt es && keysDistinct (keyRList es)
  | .wColl et es =>
      (t = 14 || t = 15) && decide (fid < 2 ^ 63) && rawTypeOk et &&
      regularElems et es
  | .wNone => false

def regularFieldsAux : WFields → Bool
  | .nil => true
  | .cons t fid v r => regularField t fid v && regularFieldsAux r

def regularEntries (kt vt : Nat) : WEntries → Bool
  | .nil => true
  | .cons k v r => regularRaw kt k && regularRaw vt v && regularEntries kt vt r

def regularElems (et : Nat) : WElems → Bool
  | .nil => true
  | .cons v r => regularRaw et v && regularElems et r
end

/-- Regular struct: regular fields with pairwise distinct field ids. -/
def regularFields (fs : WFields) : Bool :=
  regularFieldsAux fs && decide (fidList fs).Nodup

/-! ## Header and payload round-trip lemmas -/

theorem and_15_eq_mod (n : Nat) : n &&& 15 = n % 16 := by
  have h := Nat.and_pow_two_sub_one_eq_mod n 4
  norm_num at h
  exact h

theorem shiftRight_4_eq_div (n : Nat) : n >>> 4 = n / 16 := by
  have h := Nat.shiftRight_eq_div_pow n 4
  norm_num at h
  exact h

/-- The `_bool_value` update performed by `read_field_begin` for a compact
type nibble. -/
def bvUpd (ct : Nat) (bv : Option Bool) : Option Bool :=
  if ct = 1 then some true else if ct = 2 then some false else bv

theorem fieldHeader_spec (ct fid last : Nat) (hct0 : ct ≠ 0) (hct : ct < 16)
    (hfid : fid < 2 ^ 63) :
    ∃ hb, fieldHeader ct fid last = some hb ∧
      ∀ rest bv, readFieldBegin (last : Int) (hb ++ rest, bv) =
        some (ctypeToT ct, (fid : Int), (rest, bvUpd ct bv)) := by
  rw [fieldHeader]
  split
  · next hdelta =>
      refine ⟨[((fid : Int) - (last : Int)).toNat * 16 + ct], rfl, ?_⟩
      intro rest bv
      set d : Nat := ((fid : Int) - (last : Int)).toNat with hd
      have hd1 : 1 ≤ d ∧ d ≤ 15 := by
        constructor <;> omega
      have hb0 : ¬ (d * 16 + ct = 0) := by omega
      have hhi : (d * 16 + ct) >>> 4 = d := by
        rw [shiftRight_4_eq_div]; omega
      have hlo : (d * 16 + ct) &&& 15 = ct := by
        rw [and_15_eq_mod]; omega
      simp only [List.cons_append, readFieldBegin, if_neg hb0, hhi, hlo]
      rw [if_neg (by omega : ¬ d = 0)]
      have hfid2 : (last : Int) + (d : Int) = (fid : Int) := by omega
      rw [hfid2, bvUpd]
      simp
  · next hdelta =>
      obtain ⟨zz, hzz, hread⟩ :=
        zigzag_roundtrip (fid : Int) (by omega) (by exact_mod_cast hfid)
      rw [hzz]
      refine ⟨ct :: zz, rfl, ?_⟩
      intro rest bv
      have hhi : ct >>> 4 = 0 := by rw [shiftRight_4_eq_div]; omega
      have hlo : ct &&& 15 = ct := by rw [and_15_eq_mod]; omega
      simp only [List.cons_append, readFieldBegin, if_neg hct0, hhi, hlo,
        if_pos rfl]
      rw [hread rest]
      rw [Option.map_some']
      rfl

theorem listBegin_spec (et n : Nat) (hct : ctypeOf et < 16) :
    ∀ rest bv, readCollBegin (listBegin et n ++ rest, bv) =
      some (collCtypeToT (ctypeOf et), n, (rest, bv)) := by
  intro rest bv
  rw [listBegin]
  split
  · next hn =>
      have hhi : (n * 16 + ctypeOf et) >>> 4 = n := by
        rw [shiftRight_4_eq_div]; omega
      have hlo : (n * 16 + ctypeOf et) &&& 15 = ctypeOf et := by
        rw [and_15_eq_mod]; omega
      simp only [List.cons_append, readCollBegin, hhi, hlo]
      rw [if_neg (by omega : ¬ n = 15)]
      simp
  · next hn =>
      have hhi : (240 + ctypeOf et) >>> 4 = 15 := by
        rw [shiftRight_4_eq_div]; omega
      have hlo : (240 + ctypeOf et) &&& 15 = ctypeOf et := by
        rw [and_15_eq_mod]; omega
      simp only [List.cons_append, readCollBegin, hhi, hlo, if_pos rfl]
      rw [readVarint_writeVarint]
      rw [Option.map_some']
      simp

theorem mapBegin_spec (kt vt n : Nat) (hk : ctypeMapKV kt < 16)
    (hv : ctypeMapKV vt < 16) :
    ∀ rest bv, readMapBegin (mapBegin kt vt n ++ rest, bv) =
      some (if n = 0 then 0 else mapCtypeToT (ctypeMapKV kt),
        if n = 0 then 0 else mapCtypeToT (ctypeMapKV vt), n, (rest, bv)) := by
  intro rest bv
  rw [mapBegin]
  split
  · next hn =>
      subst hn
      have h0 : (0 : Nat) >>> 7 = 0 := by decide
      simp [readMapBegin, readVarint]
  · next hn =>
      have hhi : (ctypeMapKV kt * 16 + ctypeMapKV vt) >>> 4 = ctypeMapKV kt := by
        rw [shiftRight_4_eq_div]; omega
      have hlo : (ctypeMapKV kt * 16 + ctypeMapKV vt) &&& 15 = ctypeMapKV vt := by
        rw [and_15_eq_mod]; omega
      rw [readMapBegin, List.append_assoc, readVarint_writeVarint]
      simp only [Option.bind_eq_bind, Option.some_bind]
      rw [if_neg hn]
      simp only [List.cons_append, hhi, hlo, if_neg hn]
      simp

theorem readByte_pyByte (n : Int) (h1 : -128 ≤ n) (h2 : n ≤ 127)
    (rest : List Nat) (bv : Option Bool) :
    readByte (pyByte n :: rest, bv) = some (.rInt n, (rest, bv)) := by
  rw [readByte, pyByte]
  have heq : (if ((n % 256).toNat : Nat) < 128 then (((n % 256).toNat : Nat) : Int)
      else (((n % 256).toNat : Nat) : Int) - 256) = n := by
    split <;> omega
  rw [heq]

theorem readDouble_spec (bits rest : List Nat) (bv : Option Bool)
    (h : bits.length = 8) :
    readDouble (bits ++ rest, bv) = some (.rDouble bits, (rest, bv)) := by
  rw [readDouble]
  have hlen : 8 ≤ (bits ++ rest).length := by
    simp [List.length_append, h]
  rw [if_pos hlen]
  have ht : (bits ++ rest).take 8 = bits := by
    rw [← h]; simp [List.take_append]
  have hd : (bits ++ rest).drop 8 = rest := by
    rw [← h]; simp [List.drop_append]
  rw [ht, hd]

theorem readBinary_spec (bs rest : List Nat) (bv : Option Bool) :
    readBinary (writeBinary bs ++ rest, bv) =
      some (if validUtf8 bs then .rStr bs else .rBytes bs, (rest, bv)) := by
  rw [readBinary, writeBinary, List.append_assoc, readVarint_writeVarint]
  simp only [Option.bind_eq_bind, Option.some_bind]
  have ht : (bs ++ rest).take bs.length = bs := by simp [List.take_append]
  have hd : (bs ++ rest).drop bs.length = rest := by simp [List.drop_append]
  rw [ht, hd]

/-! ## Dict-update lemmas -/

theorem updateIntKey_notMem (acc : List (Int × RVal)) (k : Int) (v : RVal)
    (h : k ∉ acc.map Prod.fst) : updateIntKey acc k v = acc ++ [(k, v)] := by
  induction acc with
  | nil => rfl
  | cons p rest ih =>
      simp only [List.map_cons, List.mem_cons] at h
      push_neg at h
      rw [updateIntKey, if_neg (fun he => h.1 he.symm), ih h.2]
      rfl

theorem foldl_updateIntKey (l : List (Int × RVal)) :
    ∀ acc, ((acc.map Prod.fst ++ l.map Prod.fst).Nodup) →
    List.foldl (fun a p => updateIntKey a p.1 p.2) acc l = acc ++ l := by
  induction l with
  | nil => intro acc _; simp
  | cons p rest ih =>
      intro acc h
      simp only [List.foldl_cons]
      have hmem : p.1 ∉ acc.map Prod.fst := by
        intro hx
        have h2 := (List.nodup_append.mp h).2.2
        exact h2 hx (by simp)
      rw [updateIntKey_notMem acc p.1 p.2 hmem]
      rw [ih (acc ++ [(p.1, p.2)]) (by
        simp only [List.map_append, List.map_cons, List.map_nil] at h ⊢
        simp only [List.append_assoc, List.singleton_append]
        exact h)]
      simp

/-- Freshness of a key with respect to accumulated dict entries. -/
def keyFreshR (acc : List (RVal × RVal)) (k : RVal) : Bool :=
  acc.all fun p => !rvalKeyBeq p.1 k

theorem updateRValKey_fresh (acc : List (RVal × RVal)) (k v : RVal)
    (h : keyFreshR acc k = true) : updateRValKey acc k v = acc ++ [(k, v)] := by
  induction acc with
  | nil => rfl
  | cons p rest ih =>
      simp only [keyFreshR, List.all_cons, Bool.and_eq_true, Bool.not_eq_true'] at h
      rw [updateRValKey, if_neg (by simp [h.1]), ih (by simp [keyFreshR, h.2])]
      rfl

theorem foldl_updateRValKey (l : List (RVal × RVal)) :
    ∀ acc, keysDistinct (l.map Prod.fst) = true →
    (l.all fun p => keyFreshR acc p.1) = true →
    List.foldl (fun a p => updateRValKey a p.1 p.2) acc l = acc ++ l := by
  induction l with
  | nil => intro acc _ _; simp
  | cons p rest ih =>
      intro acc hdist hfresh
      simp only [List.map_cons, keysDistinct, Bool.and_eq_true] at hdist
      simp only [List.all_cons, Bool.and_eq_true] at hfresh
      simp only [List.foldl_cons]
      rw [updateRValKey_fresh acc p.1 p.2 hfresh.1]
      rw [ih (acc ++ [(p.1, p.2)]) hdist.2 ?hfr]
      · simp
      case hfr =>
        rw [List.all_eq_true]
        intro q hq
        have h1 : keyFreshR acc q.1 = true := by
          have := List.all_eq_true.mp hfresh.2 q hq
          exact this
        have h2 : rvalKeyBeq p.1 q.1 = false := by
          have := List.all_eq_true.mp hdist.1 q.1 (by
            simp only [List.mem_map]
            exact ⟨q, hq, rfl⟩)
          simpa using this
        simp only [keyFreshR, List.all_append, List.all_cons, List.all_nil,
          Bool.and_eq_true]
        exact ⟨h1, by simp [h2]⟩

/-! ## Bridging lemmas for the round trip -/

theorem toRFields_map_fst (fs : WFields) :
    (toRFields fs).map Prod.fst = (fidList fs).map (Nat.cast : Nat → Int) := by
  match fs with
  | .nil => rfl
  | .cons t fid v r => simp [toRFields, fidList, toRFields_map_fst r]

theorem toRFields_nodup (fs : WFields) (h : (fidList fs).Nodup) :
    ((toRFields fs).map Prod.fst).Nodup := by
  rw [toRFields_map_fst]
  exact List.Nodup.map Nat.cast_injective h

theorem toREntries_map_fst (es : WEntries) :
    (toREntries es).map Prod.fst = keyRList es := by
  match es with
  | .nil => rfl
  | .cons k v r => simp [toREntries, keyRList, toREntries_map_fst r]

theorem hashable_key (kt : Nat) (k : WVal) (hkt : keyTypeOk kt = true)
    (h : regularRaw kt k = true) : rvalHashable (toRVal k) = true := by
  match k with
  | .wInt n => rfl
  | .wDouble bits => rfl
  | .wStr bs => rfl
  | .wBytes bs => rfl
  | .wStruct fs =>
      exfalso
      simp only [regularRaw, Bool.and_eq_true] at h
      have := h.1.1
      simp only [decide_eq_true_eq] at this
      subst this
      simp [keyTypeOk] at hkt
  | .wBool b => simp [regularRaw] at h
  | .wMap kt2 vt2 es => simp [regularRaw] at h
  | .wColl et es => simp [regularRaw] at h
  | .wNone => simp [regularRaw] at h

/-! ## Definitional unfolding lemmas (all `rfl`) -/

theorem writeFieldsGo_cons (t fid last : Nat) (v : WVal) (r : WFields) :
    writeFieldsGo last (.cons t fid v r) = (do
      let p ← writeField t fid last v
      let more ← writeFieldsGo p.2 r
      some (p.1 ++ more)) := rfl

theorem writeField_bool (fid last : Nat) (b : Bool) :
    writeField 2 fid last (.wBool b) =
      (fieldHeader (if b then 1 else 2) fid last).map fun h => (h, fid) := by
  cases b <;> rfl

theorem writeField_byte (fid last : Nat) (n : Int) :
    writeField 3 fid last (.wInt n) = (do
      let h ← fieldHeader 3 fid last
      some (h ++ [pyByte n], fid)) := rfl

theorem writeField_i16 (fid last : Nat) (n : Int) :
    writeField 6 fid last (.wInt n) = (do
      let h ← fieldHeader 4 fid last
      let zz ← writeZigzag n
      some (h ++ zz, fid)) := rfl

theorem writeField_i32 (fid last : Nat) (n : Int) :
    writeField 8 fid last (.wInt n) = (do
      let h ← fieldHeader 5 fid last
      let zz ← writeZigzag n
      some (h ++ zz, fid)) := rfl

theorem writeField_i64 (fid last : Nat) (n : Int) :
    writeField 10 fid last (.wInt n) = (do
      let h ← fieldHeader 6 fid last
      let zz ← writeZigzag n
      some (h ++ zz, fid)) := rfl

theorem writeField_double (fid last : Nat) (bits : List Nat) :
    writeField 4 fid last (.wDouble bits) =
      (fieldHeader 7 fid last).map fun h => (h ++ bits, fid) := rfl

theorem writeField_str (fid last : Nat) (bs : List Nat) :
    writeField 11 fid last (.wStr bs) =
      (fieldHeader 8 fid last).map fun h => (h ++ writeBinary bs, fid) := rfl

theorem writeField_bytes (fid last : Nat) (bs : List Nat) :
    writeField 11 fid last (.wBytes bs) =
      (fieldHeader 8 fid last).map fun h => (h ++ writeBinary bs, fid) := rfl

theorem writeField_struct (fid last t2 fid2 : Nat) (v2 : WVal) (r2 : WFields) :
    writeField 12 fid last (.wStruct (.cons t2 fid2 v2 r2)) = (do
      let h ← fieldHeader 12 fid last
      let body ← writeFieldsGo 0 (.cons t2 fid2 v2 r2)
      some (h ++ body, fid)) := rfl

theorem writeField_map (fid last kt vt : Nat) (es : WEntries) :
    writeField 13 fid last (.wMap kt vt es) = (do
      let h ← fieldHeader 11 fid last
      let body ← writeEntries kt vt es
      some (h ++ mapBegin kt vt (countE es) ++ body, fid)) := rfl

theorem writeField_set (fid last et : Nat) (es : WElems) :
    writeField 14 fid last (.wColl et es) = (do
      let h ← fieldHeader 10 fid last
      let body ← writeElems et es
      some (h ++ listBegin et (countL es) ++ body, fid)) := rfl

theorem writeField_list (fid last et : Nat) (es : WElems) :
    writeField 15 fid last (.wColl et es) = (do
      let h ← fieldHeader 9 fid last
      let body ← writeElems et es
      some (h ++ listBegin et (countL es) ++ body, fid)) := rfl

theorem readValue_bool (f : Nat) (data : List Nat) (bv : Option Bool) :
    readValue (f + 1) 2 (data, bv) = some (.rBool bv, (data, bv)) := rfl

theorem readValue_byte (f : Nat) (data : List Nat) (bv : Option Bool) :
    readValue (f + 1) 3 (data, bv) = readByte (data, bv) := rfl

theorem readValue_double (f : Nat) (data : List Nat) (bv : Option Bool) :
    readValue (f + 1) 4 (data, bv) = readDouble (data, bv) := rfl

theorem readValue_i16 (f : Nat) (data : List Nat) (bv : Option Bool) :
    readValue (f + 1) 6 (data, bv) =
      (readZigzag data).map fun p => (.rInt p.1, (p.2, bv)) := rfl

theorem readValue_i32 (f : Nat) (data : List Nat) (bv : Option Bool) :
    readValue (f + 1) 8 (data, bv) =
      (readZigzag data).map fun p => (.rInt p.1, (p.2, bv)) := rfl

theorem readValue_i64 (f : Nat) (data : List Nat) (bv : Option Bool) :
    readValue (f + 1) 10 (data, bv) =
      (readZigzag data).map fun p => (.rInt p.1, (p.2, bv)) := rfl

theorem readValue_binary (f : Nat) (data : List Nat) (bv : Option Bool) :
    readValue (f + 1) 11 (data, bv) = readBinary (data, bv) := rfl

theorem readValue_struct (f : Nat) (st : ReaderSt) :
    readValue (f + 1) 12 st =
      (readStructLoop f 0 [] st).map fun p => (.rStruct p.1, p.2) := rfl

theorem readValue_map (f : Nat) (st : ReaderSt) :
    readValue (f + 1) 13 st = (do
      let (kt, vt, size, st2) ← readMapBegin st
      let (es, st3) ← readMapEntries f kt vt size [] st2
      some (.rMap es, st3)) := rfl

theorem readValue_set (f : Nat) (st : ReaderSt) :
    readValue (f + 1) 14 st = (do
      let (et, size, st2) ← readCollBegin st
      let (xs, st3) ← readListElems f et size st2
      some (.rList xs, st3)) := rfl

theorem readValue_list (f : Nat) (st : ReaderSt) :
    readValue (f + 1) 15 st = (do
      let (et, size, st2) ← readCollBegin st
      let (xs, st3) ← readListElems f et size st2
      some (.rList xs, st3)) := rfl

theorem readStructLoop_succ (f : Nat) (last : Int) (acc : List (Int × RVal))
    (st : ReaderSt) :
    readStructLoop (f + 1) last acc st = (do
      let (ft, fid, st2) ← readFieldBegin last st
      if ft = 0 then some (acc, st2)
      else do
        let (v, st3) ← readValue f ft st2
        readStructLoop f fid (updateIntKey acc fid v) st3) := rfl

theorem readMapEntries_zero (f kt vt : Nat) (acc : List (RVal × RVal))
    (st : ReaderSt) : readMapEntries (f + 1) kt vt 0 acc st = some (acc, st) := rfl

theorem readMapEntries_succ (f kt vt s : Nat) (acc : List (RVal × RVal))
    (st : ReaderSt) :
    readMapEntries (f + 1) kt vt (s + 1) acc st = (do
      let (k, st2) ← readValue f kt st
      let (v, st3) ← readValue f vt st2
      if rvalHashable k then
        readMapEntries f kt vt s (updateRValKey acc k v) st3
      else none) := rfl

theorem readListElems_zero (f et : Nat) (st : ReaderSt) :
    readListElems (f + 1) et 0 st = some ([], st) := rfl

theorem readListElems_succ (f et s : Nat) (st : ReaderSt) :
    readListElems (f + 1) et (s + 1) st = (do
      let (v, st2) ← readValue f et st
      let (xs, st3) ← readListElems f et s st2
      some (v :: xs, st3)) := rfl

theorem writeRaw_byte (n : Int) : writeRaw 3 (.wInt n) = some [pyByte n] := rfl
theorem writeRaw_i16 (n : Int) : writeRaw 6 (.wInt n) = writeZigzag n := rfl
theorem writeRaw_i32 (n : Int) : writeRaw 8 (.wInt n) = writeZigzag n := rfl
theorem writeRaw_i64 (n : Int) : writeRaw 10 (.wInt n) = writeZigzag n := rfl
theorem writeRaw_double (bits : List Nat) : writeRaw 4 (.wDouble bits) = some bits := rfl
theorem writeRaw_str (bs : List Nat) : writeRaw 11 (.wStr bs) = some (writeBinary bs) := rfl
theorem writeRaw_bytes (bs : List Nat) : writeRaw 11 (.wBytes bs) = some (writeBinary bs) := rfl
theorem writeRaw_struct (fs : WFields) : writeRaw 12 (.wStruct fs) = writeFieldsGo 0 fs := rfl

theorem writeEntries_cons (kt vt : Nat) (k v : WVal) (r : WEntries) :
    writeEntries kt vt (.cons k v r) = (do
      let kb ← writeRaw kt k
      let vb ← writeRaw vt v
      let more ← writeEntries kt vt r
      some (kb ++ vb ++ more)) := rfl

theorem writeElems_cons (et : Nat) (v : WVal) (r : WElems) :
    writeElems et (.cons v r) = (do
      let vb ← writeRaw et v
      let more ← writeElems et r
      some (vb ++ more)) := rfl

theorem one_le_weightV (v : WVal) : 1 ≤ weightV v := by
  match v with
  | .wBool _ | .wInt _ | .wDouble _ | .wStr _ | .wBytes _ | .wNone => exact le_refl 1
  | .wStruct fs => exact Nat.le_add_right 1 _
  | .wMap _ _ es => exact Nat.le_add_right 1 _
  | .wColl _ es => exact Nat.le_add_right 1 _

theorem one_le_weightF (fs : WFields) : 1 ≤ weightF fs := by
  match fs with
  | .nil => exact le_refl 1
  | .cons t fid v r =>
      show 1 ≤ 1 + weightV v + weightF r
      omega

theorem one_le_weightE (es : WEntries) : 1 ≤ weightE es := by
  match es with
  | .nil => exact le_refl 1
  | .cons k v r =>
      show 1 ≤ 1 + weightV k + weightV v + weightE r
      omega

theorem one_le_weightL (es : WElems) : 1 ≤ weightL es := by
  match es with
  | .nil => exact le_refl 1
  | .cons v r =>
      show 1 ≤ 1 + weightV v + weightL r
      omega

theorem keyTypeOk_raw (t : Nat) (h : keyTypeOk t = true) : rawTypeOk t = true := by
  simp only [keyTypeOk, Bool.or_eq_true, decide_eq_true_eq] at h
  simp only [rawTypeOk, Bool.or_eq_true, decide_eq_true_eq]
  tauto

theorem mapKV_roundtrip (t : Nat) (ht : rawTypeOk t = true) :
    mapCtypeToT (ctypeMapKV t) = t := by
  simp only [rawTypeOk, Bool.or_eq_true, decide_eq_true_eq] at ht
  rcases ht with ((((((rfl | rfl) | rfl) | rfl) | rfl) | rfl) | rfl) <;> rfl

theorem collT_roundtrip (t : Nat) (ht : rawTypeOk t = true) :
    collCtypeToT (ctypeOf t) = t := by
  simp only [rawTypeOk, Bool.or_eq_true, decide_eq_true_eq] at ht
  rcases ht with ((((((rfl | rfl) | rfl) | rfl) | rfl) | rfl) | rfl) <;> rfl

theorem ctypeMapKV_lt (t : Nat) (ht : rawTypeOk t = true) : ctypeMapKV t < 16 := by
  simp only [rawTypeOk, Bool.or_eq_true, decide_eq_true_eq] at ht
  rcases ht with ((((((rfl | rfl) | rfl) | rfl) | rfl) | rfl) | rfl) <;> decide

theorem ctypeOf_lt (t : Nat) (ht : rawTypeOk t = true) : ctypeOf t < 16 := by
  simp only [rawTypeOk, Bool.or_eq_true, decide_eq_true_eq] at ht
  rcases ht with ((((((rfl | rfl) | rfl) | rfl) | rfl) | rfl) | rfl) <;> decide

/-! ## The structural round trip on the regular fragment -/

mutual
/-- Raw (collection-element) round trip: a regular element written by
`_write_value_raw` is read back by `read_value` as its decoded form. -/
theorem RT_raw (t : Nat) (v : WVal) (h : regularRaw t v = true) :
    ∃ bs, writeRaw t v = some bs ∧
      ∀ fuel rest bv, weightV v ≤ fuel →
        ∃ bv2, readValue fuel t (bs ++ rest, bv) = some (toRVal v, (rest, bv2)) := by
  match v with
  | .wInt n =>
      simp only [regularRaw, Bool.or_eq_true, Bool.and_eq_true,
        decide_eq_true_eq] at h
      rcases h with ⟨ht, hr1, hr2⟩ | ⟨htor, hr1, hr2⟩
      · subst ht
        refine ⟨[pyByte n], writeRaw_byte n, ?_⟩
        intro fuel rest bv hfuel
        obtain ⟨f, rfl⟩ : ∃ f, fuel = f + 1 :=
          ⟨fuel - 1, by have : (1 : Nat) ≤ fuel := hfuel; omega⟩
        refine ⟨bv, ?_⟩
        rw [readValue_byte, List.singleton_append]
        exact readByte_pyByte n hr1 hr2 rest bv
      · have ht : t = 6 ∨ t = 8 ∨ t = 10 := by tauto
        obtain ⟨zz, hzz, hread⟩ := zigzag_roundtrip n hr1 hr2
        refine ⟨zz, ?_, ?_⟩
        · rcases ht with rfl | rfl | rfl
          · rw [writeRaw_i16, hzz]
          · rw [writeRaw_i32, hzz]
          · rw [writeRaw_i64, hzz]
        · intro fuel rest bv hfuel
          obtain ⟨f, rfl⟩ : ∃ f, fuel = f + 1 :=
            ⟨fuel - 1, by have : (1 : Nat) ≤ fuel := hfuel; omega⟩
          refine ⟨bv, ?_⟩
          rcases ht with rfl | rfl | rfl
          · rw [readValue_i16, hread rest, Option.map_some']; rfl
          · rw [readValue_i32, hread rest, Option.map_some']; rfl
          · rw [readValue_i64, hread rest, Option.map_some']; rfl
  | .wDouble bits =>
      simp only [regularRaw, Bool.and_eq_true, decide_eq_true_eq] at h
      obtain ⟨ht, hlen⟩ := h
      subst ht
      refine ⟨bits, writeRaw_double bits, ?_⟩
      intro fuel rest bv hfuel
      obtain ⟨f, rfl⟩ : ∃ f, fuel = f + 1 :=
        ⟨fuel - 1, by have : (1 : Nat) ≤ fuel := hfuel; omega⟩
      refine ⟨bv, ?_⟩
      rw [readValue_double]
      exact readDouble_spec bits rest bv (by simpa using hlen)
  | .wStr bs =>
      simp only [regularRaw, Bool.and_eq_true, decide_eq_true_eq] at h
      obtain ⟨ht, hu⟩ := h
      subst ht
      refine ⟨writeBinary bs, writeRaw_str bs, ?_⟩
      intro fuel rest bv hfuel
      obtain ⟨f, rfl⟩ : ∃ f, fuel = f + 1 :=
        ⟨fuel - 1, by have : (1 : Nat) ≤ fuel := hfuel; omega⟩
      refine ⟨bv, ?_⟩
      rw [readValue_binary, readBinary_spec bs rest bv, if_pos hu]
      rfl
  | .wBytes bs =>
      simp only [regularRaw, Bool.and_eq_true, Bool.not_eq_true',
        decide_eq_true_eq] at h
      obtain ⟨ht, hu⟩ := h
      subst ht
      refine ⟨writeBinary bs, writeRaw_bytes bs, ?_⟩
      intro fuel rest bv hfuel
      obtain ⟨f, rfl⟩ : ∃ f, fuel = f + 1 :=
        ⟨fuel - 1, by have : (1 : Nat) ≤ fuel := hfuel; omega⟩
      refine ⟨bv, ?_⟩
      rw [readValue_binary, readBinary_spec bs rest bv, if_neg (by simp [hu])]
      rfl
  | .wStruct fs =>
      simp only [regularRaw, Bool.and_eq_true, decide_eq_true_eq] at h
      obtain ⟨⟨ht, haux⟩, hnd⟩ := h
      subst ht
      obtain ⟨bs, hw, hr⟩ := RT_fields fs haux 0
      refine ⟨bs, by rw [writeRaw_struct, hw], ?_⟩
      intro fuel rest bv hfuel
      replace hfuel : 1 + weightF fs ≤ fuel := hfuel
      obtain ⟨f, rfl⟩ : ∃ f, fuel = f + 1 := ⟨fuel - 1, by omega⟩
      obtain ⟨bv2, hread⟩ := hr f rest bv [] (by omega)
      refine ⟨bv2, ?_⟩
      rw [readValue_struct]
      rw [Nat.cast_zero] at hread
      rw [hread, foldl_updateIntKey (toRFields fs) []
        (by simpa using toRFields_nodup fs hnd), Option.map_some']
      rfl
  | .wBool b => simp [regularRaw] at h
  | .wMap kt vt es => simp [regularRaw] at h
  | .wColl et es => simp [regularRaw] at h
  | .wNone => simp [regularRaw] at h

/-- List/set element round trip for `read_list`'s loop. -/
theorem RT_elems (et : Nat) (es : WElems) (h : regularElems et es = true) :
    ∃ bs, writeElems et es = some bs ∧
      ∀ fuel rest bv, weightL es ≤ fuel →
        ∃ bv2, readListElems fuel et (countL es) (bs ++ rest, bv) =
          some (toRElems es, (rest, bv2)) := by
  match es with
  | .nil =>
      refine ⟨[], rfl, ?_⟩
      intro fuel rest bv hfuel
      obtain ⟨f, rfl⟩ : ∃ f, fuel = f + 1 :=
        ⟨fuel - 1, by have : (1 : Nat) ≤ fuel := hfuel; omega⟩
      refine ⟨bv, ?_⟩
      rw [show countL .nil = 0 from rfl, List.nil_append, readListElems_zero]
      rfl
  | .cons v r =>
      have h1 : regularRaw et v = true := by
        have : (regularRaw et v && regularElems et r) = true := h
        simp only [Bool.and_eq_true] at this
        exact this.1
      have h2 : regularElems et r = true := by
        have : (regularRaw et v && regularElems et r) = true := h
        simp only [Bool.and_eq_true] at this
        exact this.2
      obtain ⟨vb, hwv, hrv⟩ := RT_raw et v h1
      obtain ⟨mb, hwm, hrm⟩ := RT_elems et r h2
      refine ⟨vb ++ mb, ?_, ?_⟩
      · rw [writeElems_cons, hwv]
        show (writeElems et r).bind _ = _
        rw [hwm]
        rfl
      · intro fuel rest bv hfuel
        replace hfuel : 1 + weightV v + weightL r ≤ fuel := hfuel
        obtain ⟨f, rfl⟩ : ∃ f, fuel = f + 1 := ⟨fuel - 1, by omega⟩
        obtain ⟨bvp, hreadv⟩ := hrv f (mb ++ rest) bv (by omega)
        obtain ⟨bv2, hreadm⟩ := hrm f rest bvp (by omega)
        refine ⟨bv2, ?_⟩
        rw [show countL (.cons v r) = countL r + 1 from rfl, readListElems_succ,
          show ((vb ++ mb) ++ rest : List Nat) = vb ++ (mb ++ rest) by simp,
          hreadv]
        show (readListElems f et (countL r) (mb ++ rest, bvp)).bind _ = _
        rw [hreadm]
        rfl

/-- Map entry round trip for `read_map`'s loop, with Python dict-insertion
semantics threaded through the accumulator. -/
theorem RT_entries (kt vt : Nat) (es : WEntries) (hkt : keyTypeOk kt = true)
    (h : regularEntries kt vt es = true) :
    ∃ bs, writeEntries kt vt es = some bs ∧
      ∀ fuel rest bv acc, weightE es ≤ fuel →
        ∃ bv2, readMapEntries fuel kt vt (countE es) acc (bs ++ rest, bv) =
          some (List.foldl (fun a p => updateRValKey a p.1 p.2) acc (toREntries es),
            (rest, bv2)) := by
  match es with
  | .nil =>
      refine ⟨[], rfl, ?_⟩
      intro fuel rest bv acc hfuel
      obtain ⟨f, rfl⟩ : ∃ f, fuel = f + 1 :=
        ⟨fuel - 1, by have : (1 : Nat) ≤ fuel := hfuel; omega⟩
      refine ⟨bv, ?_⟩
      rw [show countE .nil = 0 from rfl, List.nil_append, readMapEntries_zero]
      rfl
  | .cons k v r =>
      have hsplit : regularRaw kt k = true ∧ regularRaw vt v = true ∧
          regularEntries kt vt r = true := by
        have : (regularRaw kt k && regularRaw vt v && regularEntries kt vt r) = true := h
        simp only [Bool.and_eq_true] at this
        exact ⟨this.1.1, this.1.2, this.2⟩
      obtain ⟨kb, hwk, hrk⟩ := RT_raw kt k hsplit.1
      obtain ⟨vb, hwv, hrv⟩ := RT_raw vt v hsplit.2.1
      obtain ⟨mb, hwm, hrm⟩ := RT_entries kt vt r hkt hsplit.2.2
      refine ⟨kb ++ vb ++ mb, ?_, ?_⟩
      · rw [writeEntries_cons, hwk]
        show (writeRaw vt v).bind _ = _
        rw [hwv]
        show (writeEntries kt vt r).bind _ = _
        rw [hwm]
        rfl
      · intro fuel rest bv acc hfuel
        replace hfuel : 1 + weightV k + weightV v + weightE r ≤ fuel := hfuel
        obtain ⟨f, rfl⟩ : ∃ f, fuel = f + 1 := ⟨fuel - 1, by omega⟩
        obtain ⟨bvk, hreadk⟩ := hrk f (vb ++ (mb ++ rest)) bv (by omega)
        obtain ⟨bvv, hreadv⟩ := hrv f (mb ++ rest) bvk (by omega)
        obtain ⟨bv2, hreadm⟩ :=
          hrm f rest bvv (updateRValKey acc (toRVal k) (toRVal v)) (by omega)
        refine ⟨bv2, ?_⟩
        rw [show countE (.cons k v r) = countE r + 1 from rfl, readMapEntries_succ,
          show ((kb ++ vb ++ mb) ++ rest : List Nat) = kb ++ (vb ++ (mb ++ rest))
            by simp, hreadk]
        show (readValue f vt (vb ++ (mb ++ rest), bvk)).bind _ = _
        rw [hreadv]
        show (if rvalHashable (toRVal k) then _ else none) = _
        rw [if_pos (hashable_key kt k hkt hsplit.1), hreadm]
        rfl

/-- One non-STOP iteration of `read_struct`'s loop. -/
theorem structLoop_step (f : Nat) (last : Int) (acc : List (Int × RVal))
    (data : List Nat) (bv : Option Bool) (ft : Nat) (fid2 : Int) (st2 : ReaderSt)
    (hfb : readFieldBegin last (data, bv) = some (ft, fid2, st2)) (hft : ft ≠ 0) :
    readStructLoop (f + 1) last acc (data, bv) = (do
      let (v, st3) ← readValue f ft st2
      readStructLoop f fid2 (updateIntKey acc fid2 v) st3) := by
  rw [readStructLoop_succ, hfb]
  show (if ft = 0 then some (acc, st2) else (do
    let (v, st3) ← readValue f ft st2
    readStructLoop f fid2 (updateIntKey acc fid2 v) st3)) = _
  rw [if_neg hft]

/-- Helper: `read_value` on a map whose begin-header is already parsed. -/
theorem readValue_map_spec (f : Nat) (st : ReaderSt) (kt vt n : Nat)
    (st2 : ReaderSt) (hmb : readMapBegin st = some (kt, vt, n, st2)) :
    readValue (f + 1) 13 st =
      (readMapEntries f kt vt n [] st2).bind fun p => some (.rMap p.1, p.2) := by
  rw [readValue_map, hmb]
  rfl

/-- Helper: `read_value` on a set whose collection-begin is already parsed. -/
theorem readValue_set_spec (f : Nat) (st : ReaderSt) (et n : Nat)
    (st2 : ReaderSt) (hcb : readCollBegin st = some (et, n, st2)) :
    readValue (f + 1) 14 st =
      (readListElems f et n st2).bind fun p => some (.rList p.1, p.2) := by
  rw [readValue_set, hcb]
  rfl

/-- Helper: `read_value` on a list whose collection-begin is already parsed. -/
theorem readValue_list_spec (f : Nat) (st : ReaderSt) (et n : Nat)
    (st2 : ReaderSt) (hcb : readCollBegin st = some (et, n, st2)) :
    readValue (f + 1) 15 st =
      (readListElems f et n st2).bind fun p => some (.rList p.1, p.2) := by
  rw [readValue_list, hcb]
  rfl

theorem RT_fields (fs : WFields) (h : regularFieldsAux fs = true) :
    ∀ last : Nat, ∃ bs, writeFieldsGo last fs = some bs ∧
      ∀ fuel rest bv acc, weightF fs ≤ fuel →
        ∃ bv2, readStructLoop fuel (last : Int) acc (bs ++ rest, bv) =
          some (List.foldl (fun a p => updateIntKey a p.1 p.2) acc (toRFields fs),
            (rest, bv2)) := by
  match fs with
  | .nil =>
      intro last
      refine ⟨[0], rfl, ?_⟩
      intro fuel rest bv acc hfuel
      obtain ⟨f, rfl⟩ : ∃ f, fuel = f + 1 :=
        ⟨fuel - 1, by have : (1 : Nat) ≤ fuel := hfuel; omega⟩
      refine ⟨bv, ?_⟩
      rw [readStructLoop_succ,
        show (([0] : List Nat) ++ rest) = 0 :: rest from rfl,
        show readFieldBegin (last : Int) (0 :: rest, bv) = some (0, 0, (rest, bv))
          from rfl]
      rfl
  | .cons t fid v r =>
      intro last
      have hf : regularField t fid v = true := by
        have h2 : (regularField t fid v && regularFieldsAux r) = true := h
        simp only [Bool.and_eq_true] at h2
        exact h2.1
      have hrx : regularFieldsAux r = true := by
        have h2 : (regularField t fid v && regularFieldsAux r) = true := h
        simp only [Bool.and_eq_true] at h2
        exact h2.2
      obtain ⟨rbs, hwr, hrr⟩ := RT_fields r hrx fid
      match v with
      | .wBool b =>
          have hf2 : t = 2 ∧ fid < 2 ^ 63 := by
            have : (t = 2 && decide (fid < 2 ^ 63)) = true := hf
            simpa using this
          obtain ⟨rfl, hfid⟩ := hf2
          obtain ⟨hb, hwh, hrh⟩ :=
            fieldHeader_spec (if b then 1 else 2) fid last
              (by cases b <;> decide) (by cases b <;> decide) hfid
          refine ⟨hb ++ rbs, ?_, ?_⟩
          · rw [writeFieldsGo_cons, writeField_bool, hwh]
            show (writeFieldsGo fid r).bind _ = _
            rw [hwr]
            rfl
          · intro fuel rest bv acc hfuel
            replace hfuel : 1 + weightV (.wBool b) + weightF r ≤ fuel := hfuel
            have h1 : 1 ≤ weightF r := one_le_weightF r
            obtain ⟨f, rfl⟩ : ∃ f, fuel = f + 1 := ⟨fuel - 1, by omega⟩
            obtain ⟨f2, rfl⟩ : ∃ f2, f = f2 + 1 := ⟨f - 1, by omega⟩
            obtain ⟨bv2, hloop⟩ :=
              hrr (f2 + 1) rest (if b then some true else some false)
                (updateIntKey acc (fid : Int) (.rBool (some b))) (by omega)
            refine ⟨bv2, ?_⟩
            rw [show ((hb ++ rbs) ++ rest) = hb ++ (rbs ++ rest) by simp]
            rw [structLoop_step (f2 + 1) (last : Int) acc _ bv
              (ctypeToT (if b then 1 else 2)) (fid : Int)
              (rbs ++ rest, bvUpd (if b then 1 else 2) bv)
              (hrh (rbs ++ rest) bv) (by cases b <;> decide)]
            have hct : ctypeToT (if b then 1 else 2) = 2 := by cases b <;> rfl
            have hbv : bvUpd (if b then 1 else 2) bv =
                (if b then some true else some false) := by
              cases b <;> rfl
            rw [hct, hbv, readValue_bool]
            show readStructLoop (f2 + 1) (fid : Int)
              (updateIntKey acc (fid : Int) (.rBool (if b then some true else some false)))
              (rbs ++ rest, if b then some true else some false) = _
            have hsb : (.rBool (if b then some true else some false) : RVal) =
                .rBool (some b) := by cases b <;> rfl
            rw [hsb, hloop]
            rfl
      | .wInt n =>
          have hf2 : fid < 2 ^ 63 ∧ ((t = 3 ∧ -128 ≤ n ∧ n ≤ 127) ∨
              ((t = 6 ∨ t = 8 ∨ t = 10) ∧ -(2 ^ 63) ≤ n ∧ n < 2 ^ 63)) := by
            have h2 : (decide (fid < 2 ^ 63) &&
              ((t = 3 && decide (-128 ≤ n ∧ n ≤ 127)) ||
               ((t = 6 || t = 8 || t = 10) &&
                decide (-(2 ^ 63) ≤ n ∧ n < 2 ^ 63)))) = true := hf
            simp only [Bool.and_eq_true, Bool.or_eq_true, decide_eq_true_eq] at h2
            tauto
          obtain ⟨hfid, hcase⟩ := hf2
          rcases hcase with ⟨rfl, hr1, hr2⟩ | ⟨htor, hr1, hr2⟩
          · -- BYTE field
            obtain ⟨hb, hwh, hrh⟩ :=
              fieldHeader_spec 3 fid last (by decide) (by decide) hfid
            refine ⟨(hb ++ [pyByte n]) ++ rbs, ?_, ?_⟩
            · rw [writeFieldsGo_cons, writeField_byte, hwh]
              show (writeFieldsGo fid r).bind _ = _
              rw [hwr]
              rfl
            · intro fuel rest bv acc hfuel
              replace hfuel : 1 + weightV (.wInt n) + weightF r ≤ fuel := hfuel
              have h1 : 1 ≤ weightF r := one_le_weightF r
              obtain ⟨f, rfl⟩ : ∃ f, fuel = f + 1 := ⟨fuel - 1, by omega⟩
              obtain ⟨f2, rfl⟩ : ∃ f2, f = f2 + 1 := ⟨f - 1, by omega⟩
              obtain ⟨bv2, hloop⟩ := hrr (f2 + 1) rest bv
                (updateIntKey acc (fid : Int) (.rInt n)) (by omega)
              refine ⟨bv2, ?_⟩
              rw [show (((hb ++ [pyByte n]) ++ rbs) ++ rest) =
                hb ++ ([pyByte n] ++ (rbs ++ rest)) by simp]
              rw [structLoop_step (f2 + 1) (last : Int) acc _ bv
                (ctypeToT 3) (fid : Int)
                ([pyByte n] ++ (rbs ++ rest), bvUpd 3 bv)
                (hrh ([pyByte n] ++ (rbs ++ rest)) bv) (by decide)]
              rw [show ctypeToT 3 = 3 from rfl, show bvUpd 3 bv = bv from rfl,
                readValue_byte, List.singleton_append,
                readByte_pyByte n hr1 hr2 (rbs ++ rest) bv]
              show readStructLoop (f2 + 1) (fid : Int)
                (updateIntKey acc (fid : Int) (.rInt n)) (rbs ++ rest, bv) = _
              rw [hloop]
              rfl
          · -- I16/I32/I64 field
            obtain ⟨zz, hzz, hread⟩ := zigzag_roundtrip n hr1 hr2
            rcases htor with rfl | rfl | rfl
            · obtain ⟨hb, hwh, hrh⟩ :=
                fieldHeader_spec 4 fid last (by decide) (by decide) hfid
              refine ⟨(hb ++ zz) ++ rbs, ?_, ?_⟩
              · rw [writeFieldsGo_cons, writeField_i16]
                simp only [hwh, hzz]
                show (writeFieldsGo fid r).bind _ = _
                rw [hwr]
                rfl
              · intro fuel rest bv acc hfuel
                replace hfuel : 1 + weightV (.wInt n) + weightF r ≤ fuel := hfuel
                have h1 : 1 ≤ weightF r := one_le_weightF r
                obtain ⟨f, rfl⟩ : ∃ f, fuel = f + 1 := ⟨fuel - 1, by omega⟩
                obtain ⟨f2, rfl⟩ : ∃ f2, f = f2 + 1 := ⟨f - 1, by omega⟩
                obtain ⟨bv2, hloop⟩ := hrr (f2 + 1) rest bv
                  (updateIntKey acc (fid : Int) (.rInt n)) (by omega)
                refine ⟨bv2, ?_⟩
                rw [show (((hb ++ zz) ++ rbs) ++ rest) =
                  hb ++ (zz ++ (rbs ++ rest)) by simp]
                rw [structLoop_step (f2 + 1) (last : Int) acc _ bv
                  (ctypeToT 4) (fid : Int) (zz ++ (rbs ++ rest), bvUpd 4 bv)
                  (hrh (zz ++ (rbs ++ rest)) bv) (by decide)]
                rw [show ctypeToT 4 = 6 from rfl, show bvUpd 4 bv = bv from rfl,
                  readValue_i16, hread (rbs ++ rest), Option.map_some']
                show readStructLoop (f2 + 1) (fid : Int)
                  (updateIntKey acc (fid : Int) (.rInt n)) (rbs ++ rest, bv) = _
                rw [hloop]
                rfl
            · obtain ⟨hb, hwh, hrh⟩ :=
                fieldHeader_spec 5 fid last (by decide) (by decide) hfid
              refine ⟨(hb ++ zz) ++ rbs, ?_, ?_⟩
              · rw [writeFieldsGo_cons, writeField_i32]
                simp only [hwh, hzz]
                show (writeFieldsGo fid r).bind _ = _
                rw [hwr]
                rfl
              · intro fuel rest bv acc hfuel
                replace hfuel : 1 + weightV (.wInt n) + weightF r ≤ fuel := hfuel
                have h1 : 1 ≤ weightF r := one_le_weightF r
                obtain ⟨f, rfl⟩ : ∃ f, fuel = f + 1 := ⟨fuel - 1, by omega⟩
                obtain ⟨f2, rfl⟩ : ∃ f2, f = f2 + 1 := ⟨f - 1, by omega⟩
                obtain ⟨bv2, hloop⟩ := hrr (f2 + 1) rest bv
                  (updateIntKey acc (fid : Int) (.rInt n)) (by omega)
                refine ⟨bv2, ?_⟩
                rw [show (((hb ++ zz) ++ rbs) ++ rest) =
                  hb ++ (zz ++ (rbs ++ rest)) by simp]
                rw [structLoop_step (f2 + 1) (last : Int) acc _ bv
                  (ctypeToT 5) (fid : Int) (zz ++ (rbs ++ rest), bvUpd 5 bv)
                  (hrh (zz ++ (rbs ++ rest)) bv) (by decide)]
                rw [show ctypeToT 5 = 8 from rfl, show bvUpd 5 bv = bv from rfl,
                  readValue_i32, hread (rbs ++ rest), Option.map_some']
                show readStructLoop (f2 + 1) (fid : Int)
                  (updateIntKey acc (fid : Int) (.rInt n)) (rbs ++ rest, bv) = _
                rw [hloop]
                rfl
            · obtain ⟨hb, hwh, hrh⟩ :=
                fieldHeader_spec 6 fid last (by decide) (by decide) hfid
              refine ⟨(hb ++ zz) ++ rbs, ?_, ?_⟩
              · rw [writeFieldsGo_cons, writeField_i64]
                simp only [hwh, hzz]
                show (writeFieldsGo fid r).bind _ = _
                rw [hwr]
                rfl
              · intro fuel rest bv acc hfuel
                replace hfuel : 1 + weightV (.wInt n) + weightF r ≤ fuel := hfuel
                have h1 : 1 ≤ weightF r := one_le_weightF r
                obtain ⟨f, rfl⟩ : ∃ f, fuel = f + 1 := ⟨fuel - 1, by omega⟩
                obtain ⟨f2, rfl⟩ : ∃ f2, f = f2 + 1 := ⟨f - 1, by omega⟩
                obtain ⟨bv2, hloop⟩ := hrr (f2 + 1) rest bv
                  (updateIntKey acc (fid : Int) (.rInt n)) (by omega)
                refine ⟨bv2, ?_⟩
                rw [show (((hb ++ zz) ++ rbs) ++ rest) =
                  hb ++ (zz ++ (rbs ++ rest)) by simp]
                rw [structLoop_step (f2 + 1) (last : Int) acc _ bv
                  (ctypeToT 6) (fid : Int) (zz ++ (rbs ++ rest), bvUpd 6 bv)
                  (hrh (zz ++ (rbs ++ rest)) bv) (by decide)]
                rw [show ctypeToT 6 = 10 from rfl, show bvUpd 6 bv = bv from rfl,
                  readValue_i64, hread (rbs ++ rest), Option.map_some']
                show readStructLoop (f2 + 1) (fid : Int)
                  (updateIntKey acc (fid : Int) (.rInt n)) (rbs ++ rest, bv) = _
                rw [hloop]
                rfl
      | .wDouble bits =>
          have hf2 : t = 4 ∧ fid < 2 ^ 63 ∧ bits.length = 8 := by
            have h2 : (t = 4 && decide (fid < 2 ^ 63) && (bits.length = 8)) = true := hf
            simpa [and_assoc] using h2
          obtain ⟨rfl, hfid, hlen⟩ := hf2
          obtain ⟨hb, hwh, hrh⟩ :=
            fieldHeader_spec 7 fid last (by decide) (by decide) hfid
          refine ⟨(hb ++ bits) ++ rbs, ?_, ?_⟩
          · rw [writeFieldsGo_cons, writeField_double]
            simp only [hwh]
            show (writeFieldsGo fid r).bind _ = _
            rw [hwr]
            rfl
          · intro fuel rest bv acc hfuel
            replace hfuel : 1 + weightV (.wDouble bits) + weightF r ≤ fuel := hfuel
            have h1 : 1 ≤ weightF r := one_le_weightF r
            obtain ⟨f, rfl⟩ : ∃ f, fuel = f + 1 := ⟨fuel - 1, by omega⟩
            obtain ⟨f2, rfl⟩ : ∃ f2, f = f2 + 1 := ⟨f - 1, by omega⟩
            obtain ⟨bv2, hloop⟩ := hrr (f2 + 1) rest bv
              (updateIntKey acc (fid : Int) (.rDouble bits)) (by omega)
            refine ⟨bv2, ?_⟩
            rw [show (((hb ++ bits) ++ rbs) ++ rest) =
              hb ++ (bits ++ (rbs ++ rest)) by simp]
            rw [structLoop_step (f2 + 1) (last : Int) acc _ bv
              (ctypeToT 7) (fid : Int) (bits ++ (rbs ++ rest), bvUpd 7 bv)
              (hrh (bits ++ (rbs ++ rest)) bv) (by decide)]
            rw [show ctypeToT 7 = 4 from rfl, show bvUpd 7 bv = bv from rfl,
              readValue_double, readDouble_spec bits (rbs ++ rest) bv hlen]
            show readStructLoop (f2 + 1) (fid : Int)
              (updateIntKey acc (fid : Int) (.rDouble bits)) (rbs ++ rest, bv) = _
            rw [hloop]
            rfl
      | .wStr bs2 =>
          have hf2 : t = 11 ∧ fid < 2 ^ 63 ∧ validUtf8 bs2 = true := by
            have h2 : (t = 11 && decide (fid < 2 ^ 63) && validUtf8 bs2) = true := hf
            simpa [and_assoc] using h2
          obtain ⟨rfl, hfid, hu⟩ := hf2
          obtain ⟨hb, hwh, hrh⟩ :=
            fieldHeader_spec 8 fid last (by decide) (by decide) hfid
          refine ⟨(hb ++ writeBinary bs2) ++ rbs, ?_, ?_⟩
          · rw [writeFieldsGo_cons, writeField_str]
            simp only [hwh]
            show (writeFieldsGo fid r).bind _ = _
            rw [hwr]
            rfl
          · intro fuel rest bv acc hfuel
            replace hfuel : 1 + weightV (.wStr bs2) + weightF r ≤ fuel := hfuel
            have h1 : 1 ≤ weightF r := one_le_weightF r
            obtain ⟨f, rfl⟩ : ∃ f, fuel = f + 1 := ⟨fuel - 1, by omega⟩
            obtain ⟨f2, rfl⟩ : ∃ f2, f = f2 + 1 := ⟨f - 1, by omega⟩
            obtain ⟨bv2, hloop⟩ := hrr (f2 + 1) rest bv
              (updateIntKey acc (fid : Int) (.rStr bs2)) (by omega)
            refine ⟨bv2, ?_⟩
            rw [show (((hb ++ writeBinary bs2) ++ rbs) ++ rest) =
              hb ++ (writeBinary bs2 ++ (rbs ++ rest)) by simp]
            rw [structLoop_step (f2 + 1) (last : Int) acc _ bv
              (ctypeToT 8) (fid : Int)
              (writeBinary bs2 ++ (rbs ++ rest), bvUpd 8 bv)
              (hrh (writeBinary bs2 ++ (rbs ++ rest)) bv) (by decide)]
            rw [show ctypeToT 8 = 11 from rfl, show bvUpd 8 bv = bv from rfl,
              readValue_binary, readBinary_spec bs2 (rbs ++ rest) bv, if_pos hu]
            show readStructLoop (f2 + 1) (fid : Int)
              (updateIntKey acc (fid : Int) (.rStr bs2)) (rbs ++ rest, bv) = _
            rw [hloop]
            rfl
      | .wBytes bs2 =>
          have hf2 : t = 11 ∧ fid < 2 ^ 63 ∧ validUtf8 bs2 = false := by
            have h2 : (t = 11 && decide (fid < 2 ^ 63) && !validUtf8 bs2) = true := hf
            simpa [and_assoc] using h2
          obtain ⟨rfl, hfid, hu⟩ := hf2
          obtain ⟨hb, hwh, hrh⟩ :=
            fieldHeader_spec 8 fid last (by decide) (by decide) hfid
          refine ⟨(hb ++ writeBinary bs2) ++ rbs, ?_, ?_⟩
          · rw [writeFieldsGo_cons, writeField_bytes]
            simp only [hwh]
            show (writeFieldsGo fid r).bind _ = _
            rw [hwr]
            rfl
          · intro fuel rest bv acc hfuel
            replace hfuel : 1 + weightV (.wBytes bs2) + weightF r ≤ fuel := hfuel
            have h1 : 1 ≤ weightF r := one_le_weightF r
            obtain ⟨f, rfl⟩ : ∃ f, fuel = f + 1 := ⟨fuel - 1, by omega⟩
            obtain ⟨f2, rfl⟩ : ∃ f2, f = f2 + 1 := ⟨f - 1, by omega⟩
            obtain ⟨bv2, hloop⟩ := hrr (f2 + 1) rest bv
              (updateIntKey acc (fid : Int) (.rBytes bs2)) (by omega)
            refine ⟨bv2, ?_⟩
            rw [show (((hb ++ writeBinary bs2) ++ rbs) ++ rest) =
              hb ++ (writeBinary bs2 ++ (rbs ++ rest)) by simp]
            rw [structLoop_step (f2 + 1) (last : Int) acc _ bv
              (ctypeToT 8) (fid : Int)
              (writeBinary bs2 ++ (rbs ++ rest), bvUpd 8 bv)
              (hrh (writeBinary bs2 ++ (rbs ++ rest)) bv) (by decide)]
            rw [show ctypeToT 8 = 11 from rfl, show bvUpd 8 bv = bv from rfl,
              readValue_binary, readBinary_spec bs2 (rbs ++ rest) bv,
              if_neg (by simp [hu])]
            show readStructLoop (f2 + 1) (fid : Int)
              (updateIntKey acc (fid : Int) (.rBytes bs2)) (rbs ++ rest, bv) = _
            rw [hloop]
            rfl
      | .wStruct fs2 =>
          have hf2 : t = 12 ∧ fid < 2 ^ 63 ∧ fs2 ≠ .nil ∧
              regularFieldsAux fs2 = true ∧ (fidList fs2).Nodup := by
            have h2 : (t = 12 && decide (fid < 2 ^ 63) && (fs2 != .nil) &&
              regularFieldsAux fs2 && decide (fidList fs2).Nodup) = true := hf
            simpa [bne_iff_ne, and_assoc] using h2
          obtain ⟨rfl, hfid, hne, haux2, hnd2⟩ := hf2
          match fs2, hne with
          | .cons t2 f2id v2 r2, _ =>
            obtain ⟨sbs, hws, hrs⟩ := RT_fields (.cons t2 f2id v2 r2) haux2 0
            obtain ⟨hb, hwh, hrh⟩ :=
              fieldHeader_spec 12 fid last (by decide) (by decide) hfid
            refine ⟨(hb ++ sbs) ++ rbs, ?_, ?_⟩
            · rw [writeFieldsGo_cons, writeField_struct]
              simp only [hwh, hws]
              show (writeFieldsGo fid r).bind _ = _
              rw [hwr]
              rfl
            · intro fuel rest bv acc hfuel
              replace hfuel : 1 + (1 + weightF (.cons t2 f2id v2 r2)) + weightF r ≤ fuel
                := hfuel
              have h1 : 1 ≤ weightF r := one_le_weightF r
              obtain ⟨f, rfl⟩ : ∃ f, fuel = f + 1 := ⟨fuel - 1, by omega⟩
              obtain ⟨f2, rfl⟩ : ∃ f2, f = f2 + 1 := ⟨f - 1, by omega⟩
              obtain ⟨bvs, hreads⟩ := hrs f2 (rbs ++ rest) bv [] (by omega)
              obtain ⟨bv2, hloop⟩ := hrr (f2 + 1) rest bvs
                (updateIntKey acc (fid : Int)
                  (.rStruct (toRFields (.cons t2 f2id v2 r2)))) (by omega)
              refine ⟨bv2, ?_⟩
              rw [show (((hb ++ sbs) ++ rbs) ++ rest) =
                hb ++ (sbs ++ (rbs ++ rest)) by simp]
              rw [structLoop_step (f2 + 1) (last : Int) acc _ bv
                (ctypeToT 12) (fid : Int)
                (sbs ++ (rbs ++ rest), bvUpd 12 bv)
                (hrh (sbs ++ (rbs ++ rest)) bv) (by decide)]
              rw [show ctypeToT 12 = 12 from rfl, show bvUpd 12 bv = bv from rfl,
                readValue_struct]
              rw [Nat.cast_zero] at hreads
              rw [hreads, foldl_updateIntKey (toRFields (.cons t2 f2id v2 r2)) []
                (by simpa using toRFields_nodup _ hnd2), Option.map_some']
              show readStructLoop (f2 + 1) (fid : Int)
                (updateIntKey acc (fid : Int)
                  (.rStruct ([] ++ toRFields (.cons t2 f2id v2 r2))))
                (rbs ++ rest, bvs) = _
              rw [List.nil_append, hloop]
              rfl
      | .wMap kt vt es =>
          have hf2 : t = 13 ∧ fid < 2 ^ 63 ∧ keyTypeOk kt = true ∧
              rawTypeOk vt = true ∧ regularEntries kt vt es = true ∧
              keysDistinct (keyRList es) = true := by
            have h2 : (t = 13 && decide (fid < 2 ^ 63) && keyTypeOk kt &&
              rawTypeOk vt && regularEntries kt vt es &&
              keysDistinct (keyRList es)) = true := hf
            simpa [and_assoc] using h2
          obtain ⟨rfl, hfid, hkt, hvt, hreg, hdist⟩ := hf2
          obtain ⟨ebs, hwe, hre⟩ := RT_entries kt vt es hkt hreg
          obtain ⟨hb, hwh, hrh⟩ :=
            fieldHeader_spec 11 fid last (by decide) (by decide) hfid
          refine ⟨(hb ++ mapBegin kt vt (countE es) ++ ebs) ++ rbs, ?_, ?_⟩
          · rw [writeFieldsGo_cons, writeField_map]
            simp only [hwh, hwe]
            show (writeFieldsGo fid r).bind _ = _
            rw [hwr]
            rfl
          · intro fuel rest bv acc hfuel
            replace hfuel : 1 + (1 + weightE es) + weightF r ≤ fuel := hfuel
            have h1 : 1 ≤ weightF r := one_le_weightF r
            have h1e : 1 ≤ weightE es := one_le_weightE es
            obtain ⟨f, rfl⟩ : ∃ f, fuel = f + 1 := ⟨fuel - 1, by omega⟩
            obtain ⟨f2, rfl⟩ : ∃ f2, f = f2 + 1 := ⟨f - 1, by omega⟩
            obtain ⟨bve, hreade⟩ := hre f2 (rbs ++ rest) bv [] (by omega)
            obtain ⟨bv2, hloop⟩ := hrr (f2 + 1) rest bve
              (updateIntKey acc (fid : Int) (.rMap (toREntries es))) (by omega)
            refine ⟨bv2, ?_⟩
            rw [show (((hb ++ mapBegin kt vt (countE es) ++ ebs) ++ rbs) ++ rest) =
              hb ++ (mapBegin kt vt (countE es) ++ (ebs ++ (rbs ++ rest))) by simp]
            rw [structLoop_step (f2 + 1) (last : Int) acc _ bv
              (ctypeToT 11) (fid : Int)
              (mapBegin kt vt (countE es) ++ (ebs ++ (rbs ++ rest)), bvUpd 11 bv)
              (hrh _ bv) (by decide)]
            have hmb := mapBegin_spec kt vt (countE es)
              (ctypeMapKV_lt kt (keyTypeOk_raw kt hkt)) (ctypeMapKV_lt vt hvt)
              (ebs ++ (rbs ++ rest)) bv
            rw [show ctypeToT 11 = 13 from rfl, show bvUpd 11 bv = bv from rfl]
            match es, hwe, hreade, hloop, hmb with
            | .nil, hwe, hreade, hloop, hmb =>
              have hebs : ebs = [] := by
                have h0 : writeEntries kt vt WEntries.nil = some [] := rfl
                rw [h0] at hwe
                exact ((Option.some.injEq _ _).mp hwe).symm
              subst hebs
              rw [show countE WEntries.nil = 0 from rfl] at hmb ⊢
              simp only [reduceIte] at hmb
              obtain ⟨f3, rfl⟩ : ∃ f3, f2 = f3 + 1 := ⟨f2 - 1, by omega⟩
              have hbve : bve = bv := by
                rw [show countE WEntries.nil = 0 from rfl, List.nil_append,
                  readMapEntries_zero] at hreade
                exact (congrArg (fun p => p.2.2)
                  ((Option.some.injEq _ _).mp hreade)).symm
              rw [hbve] at hloop
              rw [readValue_map_spec (f3 + 1) _ 0 0 0 _ hmb]
              rw [List.nil_append, readMapEntries_zero]
              show readStructLoop (f3 + 1 + 1) (fid : Int)
                (updateIntKey acc (fid : Int) (.rMap [])) (rbs ++ rest, bv) = _
              rw [show toREntries WEntries.nil = ([] : List (RVal × RVal)) from rfl]
                at hloop
              rw [hloop]
              rfl
            | .cons k0 v0 r0, hwe, hreade, hloop, hmb =>
              rw [show countE (WEntries.cons k0 v0 r0) = countE r0 + 1 from rfl]
                at hmb hreade ⊢
              simp only [Nat.succ_ne_zero, reduceIte] at hmb
              rw [mapKV_roundtrip kt (keyTypeOk_raw kt hkt),
                mapKV_roundtrip vt hvt] at hmb
              rw [readValue_map_spec f2 _ kt vt (countE r0 + 1) _ hmb]
              rw [hreade]
              rw [foldl_updateRValKey (toREntries (.cons k0 v0 r0)) []
                (by rw [toREntries_map_fst]; exact hdist)
                (by
                  rw [List.all_eq_true]
                  intro q hq
                  rfl)]
              show readStructLoop (f2 + 1) (fid : Int)
                (updateIntKey acc (fid : Int)
                  (.rMap ([] ++ toREntries (.cons k0 v0 r0))))
                (rbs ++ rest, bve) = _
              rw [List.nil_append, hloop]
              rfl
      | .wColl et es =>
          have hf2 : (t = 14 ∨ t = 15) ∧ fid < 2 ^ 63 ∧ rawTypeOk et = true ∧
              regularElems et es = true := by
            have h2 : ((t = 14 || t = 15) && decide (fid < 2 ^ 63) && rawTypeOk et &&
              regularElems et es) = true := hf
            simpa [or_assoc, and_assoc] using h2
          obtain ⟨htor, hfid, het, hreg⟩ := hf2
          obtain ⟨ebs, hwe, hre⟩ := RT_elems et es hreg
          rcases htor with rfl | rfl
          · obtain ⟨hb, hwh, hrh⟩ :=
              fieldHeader_spec 10 fid last (by decide) (by decide) hfid
            refine ⟨(hb ++ listBegin et (countL es) ++ ebs) ++ rbs, ?_, ?_⟩
            · rw [writeFieldsGo_cons, writeField_set]
              simp only [hwh, hwe]
              show (writeFieldsGo fid r).bind _ = _
              rw [hwr]
              rfl
            · intro fuel rest bv acc hfuel
              replace hfuel : 1 + (1 + weightL es) + weightF r ≤ fuel := hfuel
              have h1 : 1 ≤ weightF r := one_le_weightF r
              obtain ⟨f, rfl⟩ : ∃ f, fuel = f + 1 := ⟨fuel - 1, by omega⟩
              obtain ⟨f2, rfl⟩ : ∃ f2, f = f2 + 1 := ⟨f - 1, by omega⟩
              obtain ⟨bve, hreade⟩ := hre f2 (rbs ++ rest) bv (by omega)
              obtain ⟨bv2, hloop⟩ := hrr (f2 + 1) rest bve
                (updateIntKey acc (fid : Int) (.rList (toRElems es))) (by omega)
              refine ⟨bv2, ?_⟩
              rw [show (((hb ++ listBegin et (countL es) ++ ebs) ++ rbs) ++ rest) =
                hb ++ (listBegin et (countL es) ++ (ebs ++ (rbs ++ rest))) by simp]
              rw [structLoop_step (f2 + 1) (last : Int) acc _ bv
                (ctypeToT 10) (fid : Int)
                (listBegin et (countL es) ++ (ebs ++ (rbs ++ rest)), bvUpd 10 bv)
                (hrh _ bv) (by decide)]
              have hcb := listBegin_spec et (countL es) (ctypeOf_lt et het)
                (ebs ++ (rbs ++ rest)) bv
              rw [collT_roundtrip et het] at hcb
              rw [show ctypeToT 10 = 14 from rfl, show bvUpd 10 bv = bv from rfl]
              rw [readValue_set_spec f2 _ et (countL es) _ hcb]
              rw [hreade]
              show readStructLoop (f2 + 1) (fid : Int)
                (updateIntKey acc (fid : Int) (.rList (toRElems es)))
                (rbs ++ rest, bve) = _
              rw [hloop]
              rfl
          · obtain ⟨hb, hwh, hrh⟩ :=
              fieldHeader_spec 9 fid last (by decide) (by decide) hfid
            refine ⟨(hb ++ listBegin et (countL es) ++ ebs) ++ rbs, ?_, ?_⟩
            · rw [writeFieldsGo_cons, writeField_list]
              simp only [hwh, hwe]
              show (writeFieldsGo fid r).bind _ = _
              rw [hwr]
              rfl
            · intro fuel rest bv acc hfuel
              replace hfuel : 1 + (1 + weightL es) + weightF r ≤ fuel := hfuel
              have h1 : 1 ≤ weightF r := one_le_weightF r
              obtain ⟨f, rfl⟩ : ∃ f, fuel = f + 1 := ⟨fuel - 1, by omega⟩
              obtain ⟨f2, rfl⟩ : ∃ f2, f = f2 + 1 := ⟨f - 1, by omega⟩
              obtain ⟨bve, hreade⟩ := hre f2 (rbs ++ rest) bv (by omega)
              obtain ⟨bv2, hloop⟩ := hrr (f2 + 1) rest bve
                (updateIntKey acc (fid : Int) (.rList (toRElems es))) (by omega)
              refine ⟨bv2, ?_⟩
              rw [show (((hb ++ listBegin et (countL es) ++ ebs) ++ rbs) ++ rest) =
                hb ++ (listBegin et (countL es) ++ (ebs ++ (rbs ++ rest))) by simp]
              rw [structLoop_step (f2 + 1) (last : Int) acc _ bv
                (ctypeToT 9) (fid : Int)
                (listBegin et (countL es) ++ (ebs ++ (rbs ++ rest)), bvUpd 9 bv)
                (hrh _ bv) (by decide)]
              have hcb := listBegin_spec et (countL es) (ctypeOf_lt et het)
                (ebs ++ (rbs ++ rest)) bv
              rw [collT_roundtrip et het] at hcb
              rw [show ctypeToT 9 = 15 from rfl, show bvUpd 9 bv = bv from rfl]
              rw [readValue_list_spec f2 _ et (countL es) _ hcb]
              rw [hreade]
              show readStructLoop (f2 + 1) (fid : Int)
                (updateIntKey acc (fid : Int) (.rList (toRElems es)))
                (rbs ++ rest, bve) = _
              rw [hloop]
              rfl
      | .wNone =>
          exact absurd hf (by simp [regularField])
end

/-! ## Message headers, `write_thrift`, `read_message_begin`, `parse_response` -/

/-- Embeds `gen_header_binary` on the method name's UTF-8 bytes;
`bytes([..., len(name_bytes)])` raises `ValueError` when the length
exceeds 255 (`none`). -/
def genHeaderBinary (name : List Nat) : Option (List Nat) :=
  if name.length ≤ 255 then
    some ([0x80, 0x01, 0x00, 0x01, 0x00, 0x00, 0x00, name.length] ++
      name ++ [0x00, 0x00, 0x00, 0x00])
  else none

/-- Embeds `gen_header_compact`. -/
def genHeaderCompact (name : List Nat) : Option (List Nat) :=
  if name.length ≤ 255 then
    some ([0x82, 0x21, 0x00, name.length] ++ name)
  else none

/-- Embeds `write_thrift`: protocol 4 picks the compact header, any other
protocol the binary header, but the body is written by `CompactWriter` in
both cases (the source's protocol-3 branch reads
`CompactWriter()  # TODO: Implement binary writer`). A trailing `0x00`
field stop is appended when the body is empty or does not end in one. -/
def writeThrift (fs : WFields) (name : List Nat) (protocol : Int) :
    Option (List Nat) := do
  let header ← if protocol = 4 then genHeaderCompact name else genHeaderBinary name
  let body ← writeStructBody fs
  let body2 := if body = [] ∨ body.getLast? ≠ some 0 then body ++ [0] else body
  some (header ++ body2)

/-- Signed 32-bit value of a 4-byte big-endian group
(`struct.unpack("!i", ...)`). -/
def toSigned32 (n : Nat) : Int :=
  if n < 2 ^ 31 then (n : Int) else (n : Int) - 2 ^ 32

/-- Embeds `CompactReader.read_message_begin`, including its `0x80`
binary-header fallback (`_read_binary_message_begin`). The `_read` slices
clamp at the end of the data (Python slicing); exceptions — bad protocol
byte, bad binary version, undecodable name, missing bytes for
`struct.unpack` — are `none`. A negative binary name length (whose Python
negative-slice behaviour is degenerate) is also mapped to `none`. -/
def readMessageBegin : ReaderSt → Option (List Nat × Nat × Int × ReaderSt)
  | ([], _) => none
  | (b :: r, bv) =>
    if b = 0x82 then
      match r with
      | [] => none
      | verType :: r2 => do
        let (seqid, r3) ← readVarint r2
        let (nameLen, r4) ← readVarint r3
        let name := r4.take nameLen
        if validUtf8 name then
          some (name, (verType >>> 5) &&& 7, (seqid : Int), (r4.drop nameLen, bv))
        else none
    else if b = 0x80 then
      match r with
      | x1 :: x2 :: x3 :: r2 =>
        let u := ((0x80 * 256 + x1) * 256 + x2) * 256 + x3
        if u / 2 ^ 16 = 0x8001 then
          match r2 with
          | l0 :: l1 :: l2 :: l3 :: r3 =>
            let nlen := ((l0 * 256 + l1) * 256 + l2) * 256 + l3
            if nlen < 2 ^ 31 then
              let name := r3.take nlen
              match r3.drop nlen with
              | s0 :: s1 :: s2 :: s3 :: r5 =>
                if validUtf8 name then
                  some (name, u % 256,
                    toSigned32 (((s0 * 256 + s1) * 256 + s2) * 256 + s3), (r5, bv))
                else none
              | _ => none
            else none
          | _ => none
        else none
      | _ => none
    else none

/-- Embeds `CompactReader.read_struct`: the loop starts with `_last_fid`
0 and an empty result dict. -/
def readStruct (fuel : Nat) (st : ReaderSt) : Option (List (Int × RVal) × ReaderSt) :=
  readStructLoop fuel 0 [] st

/-- Outcome of `CompactReader.parse_response`: the success value (field id
0) or the raw error value (field id 1; the source wraps it in a dict of
projections `error.get(1)`, `error.get(2)`, `error.get(3)` — a pure
function of the value, kept abstract here). -/
inductive ParseResult where
  | success (v : RVal)
  | failure (raw : RVal)

/-- Embeds `CompactReader.parse_response`: the message header, then ONE
field; field id 0 is a success, 1 an error, and any other id reads the
value and then raises `Unknown field id` (`none`). -/
def parseResponse (fuel : Nat) (data : List Nat) : Option ParseResult := do
  let (_name, _ty, _seq, st1) ← readMessageBegin (data, none)
  let (ft, fid, st2) ← readFieldBegin 0 st1
  if fid = 0 then
    let (v, _st3) ← readValue fuel ft st2
    some (.success v)
  else if fid = 1 then
    let (e, _st3) ← readValue fuel ft st2
    some (.failure e)
  else do
    let _ ← readValue fuel ft st2
    none

/-! ## Claim theorems for the Thrift codec (C2, C4, C6) -/

/-- C4: code bug — under protocol 3 the message gets the binary header but
the body is still compact-encoded: the field `[8, 1, 2]` (i32, id 1,
value 2) comes out as the compact delta/ctype byte `0x15` plus the zigzag
varint `0x04`, not as the binary layout
`<type 0x08> <fid 0x00 0x01> <value 0x00 0x00 0x00 0x02>`. -/
theorem C4_protocol3_compact_body :
    writeThrift (.cons 8 1 (.wInt 2) .nil) [102] 3 =
      some ([0x80, 0x01, 0x00, 0x01, 0x00, 0x00, 0x00, 1, 102, 0, 0, 0, 0] ++
        [0x15, 0x04, 0x00]) ∧
    [0x15, 0x04, 0x00] ≠ [0x08, 0x00, 0x01, 0x00, 0x00, 0x00, 0x02, 0x00] :=
  ⟨rfl, by decide⟩

/-- C6 (amended): inside structs the codec is forward-compatible — every
field id of a regular struct, known to a schema or not, appears in the
decoded dict — but `parse_response` raises on any top-level field id other
than 0 and 1, so decoding CAN fail because of an unknown top-level id. -/
theorem C6_field_ids :
    (∀ fs, regularFields fs = true →
      ∃ bs, writeStructBody fs = some bs ∧ ∀ fuel rest bv, weightF fs ≤ fuel →
        ∃ out bv2, readStruct fuel (bs ++ rest, bv) = some (out, (rest, bv2)) ∧
          out.map Prod.fst = (fidList fs).map (Nat.cast : Nat → Int)) ∧
    (∀ fuel data name ty seq st1 ft fid st2,
      readMessageBegin (data, none) = some (name, ty, seq, st1) →
      readFieldBegin 0 st1 = some (ft, fid, st2) →
      fid ≠ 0 → fid ≠ 1 → parseResponse fuel data = none) := by
  constructor
  · intro fs h
    have hx : regularFieldsAux fs = true ∧ (fidList fs).Nodup := by
      have h2 : (regularFieldsAux fs && decide (fidList fs).Nodup) = true := h
      simpa using h2
    obtain ⟨bs, hw, hr⟩ := RT_fields fs hx.1 0
    refine ⟨bs, hw, ?_⟩
    intro fuel rest bv hfuel
    obtain ⟨bv2, hl⟩ := hr fuel rest bv [] hfuel
    rw [Nat.cast_zero] at hl
    rw [foldl_updateIntKey (toRFields fs) []
      (by simpa using toRFields_nodup fs hx.2)] at hl
    refine ⟨toRFields fs, bv2, ?_, toRFields_map_fst fs⟩
    rw [readStruct]
    simpa using hl
  · intro fuel data name ty seq st1 ft fid st2 hmsg hfb h0 h1
    rw [parseResponse, hmsg]
    show (readFieldBegin 0 st1).bind _ = none
    rw [hfb]
    show (if fid = 0 then _ else if fid = 1 then _ else _ : Option ParseResult) = none
    rw [if_neg h0, if_neg h1]
    show (readValue fuel ft st2).bind (fun _ => none) = none
    cases hv : readValue fuel ft st2 <;> rfl

/-- Witness for C6: the regular struct `[[8, 7, 2]]` (an "unknown" field id
7) keeps its field id, and a concrete message whose top-level field id is
2 fails to parse. -/
theorem C6_field_ids_witness :
    regularFields (.cons 8 7 (.wInt 2) .nil) = true ∧
    (∃ bs, writeStructBody (WFields.cons 8 7 (.wInt 2) .nil) = some bs ∧
      ∀ fuel rest bv, weightF (.cons 8 7 (.wInt 2) .nil) ≤ fuel →
        ∃ out bv2, readStruct fuel (bs ++ rest, bv) = some (out, (rest, bv2)) ∧
          out.map Prod.fst =
            (fidList (.cons 8 7 (.wInt 2) .nil)).map (Nat.cast : Nat → Int)) ∧
    parseResponse 3 [0x82, 0x21, 0, 1, 102, 0x25, 4] = none :=
  ⟨by decide, C6_field_ids.1 _ (by decide),
    C6_field_ids.2 3 _ [102] 1 0 ([0x25, 4], none) 8 2 ([4], none) rfl rfl
      (by decide) (by decide)⟩

/-- C6 is false as stated at the top level: the same well-formed response
bytes parse fine with field id 0 or 1 but raise `Unknown field id: 2` when
the single top-level field carries id 2. -/
theorem C6_unknown_fid_counterexample :
    parseResponse 3 [0x82, 0x21, 0, 1, 102, 0x05, 0, 4] =
      some (.success (.rInt 2)) ∧
    parseResponse 3 [0x82, 0x21, 0, 1, 102, 0x15, 4] =
      some (.failure (.rInt 2)) ∧
    parseResponse 3 [0x82, 0x21, 0, 1, 102, 0x25, 4] = none :=
  ⟨rfl, rfl, rfl⟩

/-! ## `config` exports and `refresh_access_token` (C1) -/

/-- The names bound at top level by `linepy/config.py`: `Device`,
`DeviceDetails`, `DEFAULT_VERSIONS`, `TOKEN_V3_SUPPORT`,
`get_device_details`, `is_v3_support`, `build_app_name` — and nothing
else. -/
def configExports : List String :=
  ["Device", "DeviceDetails", "DEFAULT_VERSIONS", "TOKEN_V3_SUPPORT",
   "get_device_details", "is_v3_support", "build_app_name"]

/-- Embeds `from .config import NAME`: `ImportError` (`none`) unless the
module binds NAME. -/
def importFromConfig (n : String) : Option Unit :=
  if n ∈ configExports then some () else none

/-- The client state `refresh_access_token` reads. -/
structure ClientState where
  device : String
  authToken : Option String
  deriving DecidableEq

/-- Embeds `BaseClient.refresh_access_token` up to its first statement,
which is `from .config import PRIMARY_DEVICES`. The rest of the body —
the primary-device branch that returns the stored token unchanged, and
the network refresh — is only reached if that import succeeds, which it
never does because `config.py` binds no `PRIMARY_DEVICES`; the
continuation is therefore unreachable for every state. -/
def refreshAccessToken (st : ClientState) : Option (ClientState × String) :=
  (importFromConfig "PRIMARY_DEVICES").bind fun _ =>
    none

/-- C1: code bug — `refresh_access_token` never reaches the primary-device
no-op: its first statement `from .config import PRIMARY_DEVICES` raises
`ImportError` because `config.py` binds no such name, so the call fails
for every device profile (primary devices included) instead of being the
safe no-op the spec promises. -/
theorem C1_refresh_import_error (st : ClientState) :
    refreshAccessToken st = none ∧
    importFromConfig "PRIMARY_DEVICES" = none := by
  have h : importFromConfig "PRIMARY_DEVICES" = none := by decide
  refine ⟨?_, h⟩
  rw [refreshAccessToken, h]
  rfl

/-! ## Storage and the square cursor pair (C3, C7) -/

/-- A JSON-object store: string keys in insertion order, as Python dicts
keep them. -/
def Store := List (String × String)

/-- Python dict key update (`data[key] = value` in `FileStorage.set` after
`_read`, and `MemoryStorage.set`). -/
def storeSet : Store → String → String → Store
  | [], k, v => [(k, v)]
  | (k0, v0) :: r, k, v =>
    if k0 = k then (k0, v) :: r else (k0, v0) :: storeSet r k v

/-- Embeds `dict.get` over the store. -/
def storeGet (s : Store) (k : String) : Option String :=
  (s.find? (fun p => p.1 == k)).map Prod.snd

/-- Embeds `FileStorage.set`: read the file, update the key, then `_write`
the whole file with `open(self.path, "w")` + `json.dump` — opening with
mode `"w"` truncates first, so the file passes through an intermediate
state (`none`) that is neither the old nor the new contents before the new
JSON lands. The list is the on-disk history of one `set`; a crash can stop
it after any element. -/
def fileSetStates (s : Store) (k v : String) : List (Option Store) :=
  [some s, none, some (storeSet s k v)]

/-- Modelled from the spec: `TokenManager.set_square_sync_token`, called
from `polling.py` but absent from `storage.py`, stores the sync cursor
under the key `squareSync:<chatMid>`. -/
def setSquareSyncToken (s : Store) (mid v : String) : Store :=
  storeSet s ("squareSync:" ++ mid) v

/-- Modelled from the spec: `TokenManager.set_square_continuation_token`
stores the continuation cursor under the key `squareCont:<chatMid>`. -/
def setSquareContToken (s : Store) (mid v : String) : Store :=
  storeSet s ("squareCont:" ++ mid) v

/-- Python truthiness of an optional string (`None` and `""` are falsy). -/
def optTruthy : Option String → Bool
  | none => false
  | some s => !s.isEmpty

/-- The part of a `fetchSquareChatEvents` response `_fetch_once` looks at. -/
structure SquareResp where
  syncToken : Option String
  contToken : Option String

/-- A `ChatWorker`'s cursor state: the in-memory tokens and the store. -/
structure WorkerSt where
  syncToken : Option String
  contToken : Option String
  store : Store

/-- Embeds `ChatWorker._fetch_once` on a response (the `hasattr` guards
hold on the typed response object): the sync token is updated in memory
and persisted when truthy; the continuation token is always updated in
memory but persisted only when truthy — two separate `storage.set` calls,
and a falsy continuation leaves the previously stored one in place. -/
def fetchOnce (mid : String) (st : WorkerSt) (r : SquareResp) : WorkerSt :=
  let st1 : WorkerSt :=
    if optTruthy r.syncToken then
      WorkerSt.mk r.syncToken st.contToken
        (setSquareSyncToken st.store mid (r.syncToken.getD ""))
    else st
  WorkerSt.mk st1.syncToken r.contToken
    (if optTruthy r.contToken then
      setSquareContToken st1.store mid (r.contToken.getD "")
    else st1.store)

theorem storeGet_set_self (s : Store) (k v : String) :
    storeGet (storeSet s k v) k = some v := by
  induction s with
  | nil =>
      show storeGet [(k, v)] k = some v
      rw [storeGet, List.find?_cons_of_pos _ (by simp)]
      rfl
  | cons p r ih =>
      obtain ⟨k0, v0⟩ := p
      rw [storeSet]
      by_cases h : k0 = k
      · subst h
        rw [if_pos rfl, storeGet, List.find?_cons_of_pos _ (by simp)]
        rfl
      · rw [if_neg h, storeGet, List.find?_cons_of_neg _ (by simpa using h)]
        exact ih

theorem storeGet_set_other (s : Store) (k k2 v : String) (h : k2 ≠ k) :
    storeGet (storeSet s k2 v) k = storeGet s k := by
  induction s with
  | nil =>
      show storeGet [(k2, v)] k = storeGet [] k
      rw [storeGet, List.find?_cons_of_neg _ (by simpa using h)]
      rfl
  | cons p r ih =>
      obtain ⟨k0, v0⟩ := p
      rw [storeSet]
      by_cases h0 : k0 = k2
      · subst h0
        rw [if_pos rfl, storeGet, storeGet, List.find?_cons_of_neg _ (by simpa using h),
          List.find?_cons_of_neg _ (by simpa using h)]
      · rw [if_neg h0]
        by_cases hk : k0 = k
        · subst hk
          rw [storeGet, storeGet, List.find?_cons_of_pos _ (by simp),
            List.find?_cons_of_pos _ (by simp)]
        · rw [storeGet, storeGet, List.find?_cons_of_neg _ (by simpa using hk),
            List.find?_cons_of_neg _ (by simpa using hk)]
          exact ih

theorem squareKeys_ne (mid : String) :
    ("squareSync:" ++ mid) ≠ ("squareCont:" ++ mid) := by
  obtain ⟨l⟩ := mid
  intro h
  have h2 : "squareSync:".data ++ l = "squareCont:".data ++ l :=
    congrArg String.data h
  have h3 := (List.append_inj h2 (by decide)).1
  exact absurd h3 (by decide)

/-- C3 (amended): each cursor is persisted by its own single-key
`storage.set`; when a fetch reports both cursors truthy, the store
afterwards holds exactly that fetch's pair. (When the continuation is
falsy the pair can tear — see the counterexample — and the file write
itself passes through a truncated state.) -/
theorem C3_cursor_persistence (mid : String) (st : WorkerSt) (r : SquareResp)
    (hs : optTruthy r.syncToken = true) (hc : optTruthy r.contToken = true) :
    storeGet (fetchOnce mid st r).store ("squareSync:" ++ mid) = r.syncToken ∧
    storeGet (fetchOnce mid st r).store ("squareCont:" ++ mid) = r.contToken := by
  obtain ⟨sv, hsv⟩ : ∃ sv, r.syncToken = some sv := by
    cases h : r.syncToken with
    | none => rw [h] at hs; exact absurd hs (by simp [optTruthy])
    | some sv => exact ⟨sv, rfl⟩
  obtain ⟨cv, hcv⟩ : ∃ cv, r.contToken = some cv := by
    cases h : r.contToken with
    | none => rw [h] at hc; exact absurd hc (by simp [optTruthy])
    | some cv => exact ⟨cv, rfl⟩
  rw [hsv] at hs
  rw [hcv] at hc
  simp only [fetchOnce, hsv, hcv, hs, hc, reduceIte, Option.getD_some]
  simp only [setSquareContToken, setSquareSyncToken]
  constructor
  · rw [storeGet_set_other _ _ _ _ (squareKeys_ne mid).symm, storeGet_set_self]
  · rw [storeGet_set_self]

/-- Witness for C3: a concrete fetch with both cursors truthy persists the
pair. -/
theorem C3_cursor_persistence_witness :
    optTruthy (SquareResp.mk (some "s") (some "c")).syncToken = true ∧
    optTruthy (SquareResp.mk (some "s") (some "c")).contToken = true ∧
    (storeGet (fetchOnce "m" (WorkerSt.mk none none []) ⟨some "s", some "c"⟩).store
        ("squareSync:" ++ "m") = some "s" ∧
      storeGet (fetchOnce "m" (WorkerSt.mk none none []) ⟨some "s", some "c"⟩).store
        ("squareCont:" ++ "m") = some "c") :=
  ⟨rfl, rfl, C3_cursor_persistence "m" ⟨none, none, []⟩ ⟨some "s", some "c"⟩ rfl rfl⟩

/-- C3 is false as stated: after a fetch whose continuation token is null,
the store pairs the NEW sync token with the OLD fetch's continuation token
— a torn pair with no crash involved — and a single `FileStorage.set`
passes through a truncated on-disk state, so the file rewrite is not
atomic either. -/
theorem C3_torn_pair_counterexample :
    (storeGet (fetchOnce "m"
        (fetchOnce "m" (WorkerSt.mk none none []) ⟨some "s1", some "c1"⟩)
        ⟨some "s2", none⟩).store ("squareSync:" ++ "m") = some "s2" ∧
      storeGet (fetchOnce "m"
        (fetchOnce "m" (WorkerSt.mk none none []) ⟨some "s1", some "c1"⟩)
        ⟨some "s2", none⟩).store ("squareCont:" ++ "m") = some "c1") ∧
    none ∈ fileSetStates [("squareSync:m", "s1")] "squareCont:m" "c1" := by
  refine ⟨⟨rfl, rfl⟩, ?_⟩
  simp [fileSetStates]

/-! ## Fetch-worker rate-limit handling (C7) -/

/-- Substring test (Python's `needle in haystack` on strings). -/
def listInfix (needle hay : List Char) : Bool :=
  (List.range (hay.length + 1)).any fun i => needle.isPrefixOf (hay.drop i)

/-- Embeds `ChatWorker.run`'s classification of a caught exception:
`str(e).lower()` contains `"429"`, `"too many"` or `"rate"`. -/
def isRateLimited (msg : String) : Bool :=
  let s := msg.data.map Char.toLower
  listInfix "429".data s || listInfix "too many".data s || listInfix "rate".data s

/-- Embeds one `ChatWorker.run` loop iteration in which `_fetch_once`
raised with message `msg`: the exception is caught inside the loop; a
rate-limited error sleeps 2 s, any other error 0.1 s; either way
`_running` stays true and the loop retries with the worker state (cursors
and store) untouched. Result: (state after, tenths of a second slept,
still running). -/
def workerOnError (st : WorkerSt) (msg : String) : WorkerSt × Nat × Bool :=
  if isRateLimited msg then (st, 20, true) else (st, 1, true)

/-- C7: a rate-limit failure in the fetch worker leaves the in-memory and
persisted cursors exactly as they were, pauses 2 s, and keeps the loop
running so the same fetch is retried; the exception never escapes `run`. -/
theorem C7_rate_limit_swallowed (st : WorkerSt) (msg : String)
    (h : isRateLimited msg = true) :
    workerOnError st msg = (st, 20, true) := by
  rw [workerOnError, if_pos h]

/-- Witness for C7 at a concrete HTTP 429 error message. -/
theorem C7_rate_limit_swallowed_witness :
    isRateLimited "HTTP 429 Too Many Requests" = true ∧
    workerOnError (WorkerSt.mk none none []) "HTTP 429 Too Many Requests" =
      (WorkerSt.mk none none [], 20, true) :=
  ⟨by decide, C7_rate_limit_swallowed _ _ (by decide)⟩

/-! ## QR and PIN login wait loops (C8) -/

/-- One long-poll attempt's outcome as `_check_qr_verified` and
`_check_pin_verified` classify a raised exception: the request returned
(after `d` seconds), timed out (message contains `"timed out"` or
`"ReadTimeout"`; retried at once), or failed otherwise (followed by
`time.sleep(2)`). -/
inductive PollOutcome where
  | success (d : Nat)
  | timedOut (d : Nat)
  | otherError (d : Nat)
  deriving DecidableEq

/-- Seconds the request itself took. -/
def pollDuration : PollOutcome → Nat
  | .success d => d
  | .timedOut d => d
  | .otherError d => d

/-- Embeds the wait loop shared verbatim by `_check_qr_verified` and
`_check_pin_verified` (they differ only in the RPC method name): while
the elapsed time is below the 300 s deadline, issue the next long poll; a
success returns `true`, a timeout retries at once, any other error sleeps
2 s and retries. Time is whole seconds driven by the listed outcomes;
result is (elapsed seconds at exit, verified). An exhausted outcome list
leaves the loop at the current clock, unverified. -/
def loginWait : Nat → List PollOutcome → Nat × Bool
  | t, [] => (t, false)
  | t, b :: r =>
    if t < 300 then
      match b with
      | .success d => (t + d, true)
      | .timedOut d => loginWait (t + d) r
      | .otherError d => loginWait (t + d + 2) r
    else (t, false)

theorem loginWait_cons (t : Nat) (b : PollOutcome) (r : List PollOutcome) :
    loginWait t (b :: r) = if t < 300 then
      (match b with
       | .success d => (t + d, true)
       | .timedOut d => loginWait (t + d) r
       | .otherError d => loginWait (t + d + 2) r)
    else (t, false) := rfl

/-- C8 (amended): with per-request timeouts of at most 20 s, the wait
loop issues no further request once 300 s have elapsed, and the total
wait never exceeds 321 s (a poll issued just before the deadline may take
its full 20 s plus the 2 s error pause) — but the wait CAN overrun the
declared 300 s deadline itself, so the claim's "no wait exceeds the
declared outer deadline" is false as stated (see the counterexample). -/
theorem C8_wait_bounds (bs : List PollOutcome)
    (hd : ∀ b ∈ bs, pollDuration b ≤ 20) :
    ∀ t, (loginWait t bs).1 ≤ max t 321 ∧
      (300 ≤ t → loginWait t bs = (t, false)) := by
  induction bs with
  | nil =>
      intro t
      exact ⟨Nat.le_max_left _ _, fun _ => rfl⟩
  | cons b r ih =>
      intro t
      have hb : pollDuration b ≤ 20 := hd b (by simp)
      have hr : ∀ x ∈ r, pollDuration x ≤ 20 := fun x hx => hd x (by simp [hx])
      by_cases ht : t < 300
      · constructor
        · rw [loginWait_cons, if_pos ht]
          match b, hb with
          | .success d, hb =>
              show t + d ≤ max t 321
              have hd20 : d ≤ 20 := hb
              omega
          | .timedOut d, hb =>
              show (loginWait (t + d) r).1 ≤ max t 321
              have h2 := (ih hr (t + d)).1
              have hd20 : d ≤ 20 := hb
              omega
          | .otherError d, hb =>
              show (loginWait (t + d + 2) r).1 ≤ max t 321
              have h2 := (ih hr (t + d + 2)).1
              have hd20 : d ≤ 20 := hb
              omega
        · intro h300
          omega
      · rw [loginWait_cons, if_neg ht]
        exact ⟨Nat.le_max_left _ _, fun _ => rfl⟩

/-- Witness for C8 at a single 19 s timeout from a fresh clock. -/
theorem C8_wait_bounds_witness :
    (∀ b ∈ [PollOutcome.timedOut 19], pollDuration b ≤ 20) ∧
    ((loginWait 0 [PollOutcome.timedOut 19]).1 ≤ max 0 321 ∧
      (300 ≤ 0 → loginWait 0 [PollOutcome.timedOut 19] = (0, false))) :=
  ⟨by decide, C8_wait_bounds [PollOutcome.timedOut 19] (by decide) 0⟩

/-- C8 is false as stated: sixteen 19-second request timeouts keep every
poll start before the 300 s deadline (the 16th starts at 285 s), yet the
wait only ends at 304 s — past the declared 5-minute outer deadline. -/
theorem C8_deadline_overrun_counterexample :
    loginWait 0 (List.replicate 16 (PollOutcome.timedOut 19)) = (304, false) ∧
    300 < 304 :=
  ⟨by decide, by decide⟩

/-! ## Push-ack ordering (C5) -/

/-- Embeds `LegyH2Frame.request_packet`: big-endian u16 payload length,
the frame type byte, then the payload; `struct.pack("!H", ...)` raises
for lengths not below 2^16. -/
def requestPacket (frameType : Nat) (payload : List Nat) : Option (List Nat) :=
  if payload.length < 2 ^ 16 then
    some ([payload.length / 256, payload.length % 256, frameType] ++ payload)
  else none

/-- Big-endian bytes of an unsigned 32-bit value. -/
def packU32 (n : Nat) : List Nat :=
  [n / 2 ^ 24 % 256, n / 2 ^ 16 % 256, n / 256 % 256, n % 256]

/-- Embeds `struct.pack("!i", n)`: raises unless the value fits i32. -/
def packI32 (n : Int) : Option (List Nat) :=
  if -(2 ^ 31) ≤ n ∧ n < 2 ^ 31 then some (packU32 ((n % 2 ^ 32).toNat)) else none

/-- Embeds `LegyH2PushFrame.ack_packet`: a type-4 frame whose payload is
`[ACK = 1, serviceType]` plus the push id as big-endian i32. -/
def pushAckPacket (serviceType : Nat) (pushId : Int) : Option (List Nat) := do
  let pid ← packI32 pushId
  requestPacket 4 ([1, serviceType] ++ pid)

/-- The effects `PushConnection` can perform, in program order.
`write_bytes(data)` with its default `flush=False` only queues the bytes
on the HTTP/2 connection object (`conn.send_data`); an actual socket
write happens only in `send_data_to_socket`. -/
inductive PushEffect where
  | queueBytes (bs : List Nat)
  | socketSend
  | handlerInvoked (serviceType : Nat) (pushId : Int) (payload : List Nat)
  deriving DecidableEq

/-- Embeds the type-4 (push) branch of `_on_packet_received` as the
ordered list of effects it performs. Payloads shorter than 6 bytes
return early; push kind 0 (NONE) goes straight to `manager.on_push`;
push kind 2 (ACK_REQUIRED) first calls
`write_bytes(packet.ack_packet())` — queueing, not flushing — then
invokes the handler; kind 1 (ACK) does nothing; any other kind makes the
`LegyH2PushFrameType` constructor raise (`none`). -/
def onPushPacket (payload : List Nat) : Option (List PushEffect) :=
  match payload with
  | b0 :: b1 :: b2 :: b3 :: b4 :: b5 :: rest =>
    let pid := toSigned32 (((b2 * 256 + b3) * 256 + b4) * 256 + b5)
    if b0 = 0 then some [.handlerInvoked b1 pid rest]
    else if b0 = 2 then do
      let ack ← pushAckPacket b1 pid
      some [.queueBytes ack, .handlerInvoked b1 pid rest]
    else if b0 = 1 then some []
    else none
  | _ => some []

/-- C5 (amended): for an ACK_REQUIRED push frame the ack bytes — the
type-4 frame carrying `(serviceKind, pushId)` — are queued on the
connection before the handler is invoked, but no socket write occurs in
the branch (the queued ack reaches the wire only with the next flush),
so "written to the socket before the handler" is false as stated. -/
theorem C5_ack_queued_before_handler (b1 b2 b3 b4 b5 : Nat) (rest : List Nat)
    (h2 : b2 < 256) (h3 : b3 < 256) (h4 : b4 < 256) (h5 : b5 < 256) :
    ∃ ack, pushAckPacket b1 (toSigned32 (((b2 * 256 + b3) * 256 + b4) * 256 + b5)) =
      some ack ∧
    onPushPacket (2 :: b1 :: b2 :: b3 :: b4 :: b5 :: rest) =
      some [.queueBytes ack,
        .handlerInvoked b1 (toSigned32 (((b2 * 256 + b3) * 256 + b4) * 256 + b5)) rest] ∧
    PushEffect.socketSend ∉ [PushEffect.queueBytes ack,
      PushEffect.handlerInvoked b1
        (toSigned32 (((b2 * 256 + b3) * 256 + b4) * 256 + b5)) rest] := by
  have hu : ((b2 * 256 + b3) * 256 + b4) * 256 + b5 < 2 ^ 32 := by omega
  have hrange : -(2 ^ 31) ≤ toSigned32 (((b2 * 256 + b3) * 256 + b4) * 256 + b5) ∧
      toSigned32 (((b2 * 256 + b3) * 256 + b4) * 256 + b5) < 2 ^ 31 := by
    rw [toSigned32]
    by_cases hc : ((b2 * 256 + b3) * 256 + b4) * 256 + b5 < 2 ^ 31
    · rw [if_pos hc]
      constructor
      · have : (0 : Int) ≤ (((b2 * 256 + b3) * 256 + b4) * 256 + b5 : Nat) :=
          Int.ofNat_nonneg _
        omega
      · exact_mod_cast hc
    · rw [if_neg hc]
      have h32 : ((((b2 * 256 + b3) * 256 + b4) * 256 + b5 : Nat) : Int) < 2 ^ 32 :=
        by exact_mod_cast hu
      have h31 : (2 ^ 31 : Int) ≤ (((b2 * 256 + b3) * 256 + b4) * 256 + b5 : Nat) := by
        have := Nat.le_of_not_lt hc
        exact_mod_cast this
      omega
  obtain ⟨pid, hpid⟩ : ∃ pid,
      packI32 (toSigned32 (((b2 * 256 + b3) * 256 + b4) * 256 + b5)) = some pid :=
    ⟨_, by rw [packI32, if_pos hrange]⟩
  have hlen : ([1, b1] ++ pid).length < 2 ^ 16 := by
    have : pid = packU32 (((toSigned32 (((b2 * 256 + b3) * 256 + b4) * 256 + b5)) %
        2 ^ 32).toNat) := by
      rw [packI32, if_pos hrange] at hpid
      exact (Option.some.injEq _ _).mp hpid.symm
    subst this
    rw [packU32]
    simp
  refine ⟨([1, b1] ++ pid).length / 256 :: ([1, b1] ++ pid).length % 256 :: 4 ::
    ([1, b1] ++ pid), ?_, ?_, ?_⟩
  · rw [pushAckPacket]
    simp only [hpid]
    show (if ([1, b1] ++ pid).length < 2 ^ 16 then
        some ([([1, b1] ++ pid).length / 256, ([1, b1] ++ pid).length % 256, 4] ++
          ([1, b1] ++ pid))
      else none) = _
    rw [if_pos hlen]
    rfl
  · rw [onPushPacket]
    rw [if_neg (by decide : ¬(2 : Nat) = 0), if_pos (rfl : (2 : Nat) = 2)]
    rw [pushAckPacket]
    simp only [hpid]
    show (Option.bind (if ([1, b1] ++ pid).length < 2 ^ 16 then
        some ([([1, b1] ++ pid).length / 256, ([1, b1] ++ pid).length % 256, 4] ++
          ([1, b1] ++ pid))
      else none) _) = _
    rw [if_pos hlen]
    rfl
  · simp

/-- Witness for C5 at service 3, push id 7. -/
theorem C5_ack_queued_before_handler_witness :
    (3 < 256 ∧ 0 < 256 ∧ 7 < 256) ∧
    ∃ ack, pushAckPacket 3 (toSigned32 (((0 * 256 + 0) * 256 + 0) * 256 + 7)) =
      some ack ∧
    onPushPacket (2 :: 3 :: 0 :: 0 :: 0 :: 7 :: []) =
      some [.queueBytes ack,
        .handlerInvoked 3 (toSigned32 (((0 * 256 + 0) * 256 + 0) * 256 + 7)) []] ∧
    PushEffect.socketSend ∉ [PushEffect.queueBytes ack,
      PushEffect.handlerInvoked 3
        (toSigned32 (((0 * 256 + 0) * 256 + 0) * 256 + 7)) []] :=
  ⟨⟨by decide, by decide, by decide⟩,
    C5_ack_queued_before_handler 3 0 0 0 7 [] (by decide) (by decide) (by decide)
      (by decide)⟩

/-- C5 is false as stated: for a concrete ACK_REQUIRED frame the branch's
effect trace is exactly "queue ack bytes, invoke handler" — it contains
no socket write at all, so the ack is not written to the socket before
the handler runs. -/
theorem C5_no_socket_write_counterexample :
    onPushPacket [2, 3, 0, 0, 0, 7] =
      some [.queueBytes [0, 6, 4, 1, 3, 0, 0, 0, 7], .handlerInvoked 3 7 []] ∧
    PushEffect.socketSend ∉ [PushEffect.queueBytes [0, 6, 4, 1, 3, 0, 0, 0, 7],
      PushEffect.handlerInvoked 3 7 []] :=
  ⟨by decide, by decide⟩

/-! ## Push-frame chunking (C9) -/

/-- Embeds the frame-stripping loop of `_on_data_received`: while at
least 3 bytes are buffered, read the big-endian u16 size (top bit masked
with 32767) and the type byte; stop if the payload is incomplete,
otherwise emit `(packetType, payload)` and drop the frame. Fuel bounds
the iteration count (each round consumes at least 3 bytes, so any fuel
at least the buffer length is enough). -/
def drainF : Nat → List Nat → List (Nat × List Nat) →
    List Nat × List (Nat × List Nat)
  | 0, buf, out => (buf, out)
  | fuel + 1, buf, out =>
    match buf with
    | b0 :: b1 :: b2 :: r =>
      let size := (b0 * 256 + b1) &&& 32767
      if r.length < size then (buf, out)
      else drainF fuel (r.drop size) (out ++ [(b2, r.take size)])
    | _ => (buf, out)

/-- Embeds one `_on_data_received(data)` call on buffer `buf`: append the
chunk, strip complete frames. Returns (buffer after, packets emitted by
this call, in order). -/
def feedData (buf data : List Nat) : List Nat × List (Nat × List Nat) :=
  drainF (buf.length + data.length) (buf ++ data) []

/-- A whole sequence of `_on_data_received` calls from a fresh
connection, collecting every emitted packet in order. -/
def feedAll (chunks : List (List Nat)) : List Nat × List (Nat × List Nat) :=
  chunks.foldl (fun s c =>
    let r := feedData s.1 c
    (r.1, s.2 ++ r.2)) ([], [])

/-- A buffer holding no complete frame (what the loop leaves behind). -/
def stuckBuf : List Nat → Bool
  | b0 :: b1 :: _ :: r => decide (r.length < ((b0 * 256 + b1) &&& 32767))
  | _ => true

theorem drainF_congr : ∀ f1 f2 buf out, buf.length ≤ f1 → buf.length ≤ f2 →
    drainF f1 buf out = drainF f2 buf out := by
  intro f1
  induction f1 with
  | zero =>
      intro f2 buf out h1 _
      have : buf = [] := List.eq_nil_of_length_eq_zero (Nat.le_zero.mp h1)
      subst this
      cases f2 <;> rfl
  | succ f ih =>
      intro f2 buf out h1 h2
      match buf, h1, h2 with
      | [], _, _ => cases f2 <;> rfl
      | [b0], _, h2 =>
          obtain ⟨g, rfl⟩ : ∃ g, f2 = g + 1 :=
            ⟨f2 - 1, by simp only [List.length_cons, List.length_nil] at h2; omega⟩
          rfl
      | [b0, b1], _, h2 =>
          obtain ⟨g, rfl⟩ : ∃ g, f2 = g + 1 :=
            ⟨f2 - 1, by simp only [List.length_cons, List.length_nil] at h2; omega⟩
          rfl
      | b0 :: b1 :: b2 :: r, h1, h2 =>
          obtain ⟨g, rfl⟩ : ∃ g, f2 = g + 1 :=
            ⟨f2 - 1, by simp only [List.length_cons] at h2; omega⟩
          rw [drainF, drainF]
          by_cases hs : r.length < ((b0 * 256 + b1) &&& 32767)
          · rw [if_pos hs, if_pos hs]
          · rw [if_neg hs, if_neg hs]
            exact ih g (r.drop _) _
              (by simp only [List.length_drop, List.length_cons] at *; omega)
              (by simp only [List.length_drop, List.length_cons] at *; omega)

theorem drainF_out : ∀ f buf out, drainF f buf out =
    ((drainF f buf []).1, out ++ (drainF f buf []).2) := by
  intro f
  induction f with
  | zero => intro buf out; simp [drainF]
  | succ f ih =>
      intro buf out
      match buf with
      | [] => simp [drainF]
      | [b0] => simp [drainF]
      | [b0, b1] => simp [drainF]
      | b0 :: b1 :: b2 :: r =>
          rw [drainF, drainF]
          by_cases hs : r.length < ((b0 * 256 + b1) &&& 32767)
          · rw [if_pos hs, if_pos hs]
            simp
          · rw [if_neg hs, if_neg hs]
            rw [ih (r.drop _) ([] ++ [(b2, r.take _)]),
              ih (r.drop _) (out ++ [(b2, r.take _)])]
            simp

theorem drainF_stuck : ∀ f buf out, buf.length ≤ f →
    stuckBuf (drainF f buf out).1 = true := by
  intro f
  induction f with
  | zero =>
      intro buf out h
      have : buf = [] := List.eq_nil_of_length_eq_zero (Nat.le_zero.mp h)
      subst this
      rfl
  | succ f ih =>
      intro buf out h
      match buf with
      | [] => rfl
      | [b0] => rfl
      | [b0, b1] => rfl
      | b0 :: b1 :: b2 :: r =>
          rw [drainF]
          by_cases hs : r.length < ((b0 * 256 + b1) &&& 32767)
          · rw [if_pos hs]
            simpa [stuckBuf] using hs
          · rw [if_neg hs]
            exact ih (r.drop _) _
              (by simp only [List.length_drop, List.length_cons] at *; omega)

theorem drainF_append (d : List Nat) : ∀ f1 buf f2 out, buf.length ≤ f1 →
    (buf ++ d).length ≤ f2 →
    drainF f2 (buf ++ d) out =
      drainF ((drainF f1 buf []).1 ++ d).length ((drainF f1 buf []).1 ++ d)
        (out ++ (drainF f1 buf []).2) := by
  intro f1
  induction f1 with
  | zero =>
      intro buf f2 out h1 h2
      have : buf = [] := List.eq_nil_of_length_eq_zero (Nat.le_zero.mp h1)
      subst this
      show drainF f2 ([] ++ d) out = drainF ([] ++ d).length ([] ++ d) (out ++ [])
      rw [List.append_nil]
      exact drainF_congr f2 ([] ++ d).length ([] ++ d) out h2 (Nat.le_refl _)
  | succ f ih =>
      intro buf f2 out h1 h2
      match buf with
      | [] =>
          show drainF f2 ([] ++ d) out = drainF ([] ++ d).length ([] ++ d) (out ++ [])
          rw [List.append_nil]
          exact drainF_congr f2 ([] ++ d).length ([] ++ d) out h2 (Nat.le_refl _)
      | [b0] =>
          show drainF f2 ([b0] ++ d) out =
            drainF ([b0] ++ d).length ([b0] ++ d) (out ++ [])
          rw [List.append_nil]
          exact drainF_congr f2 ([b0] ++ d).length ([b0] ++ d) out h2 (Nat.le_refl _)
      | [b0, b1] =>
          show drainF f2 ([b0, b1] ++ d) out =
            drainF ([b0, b1] ++ d).length ([b0, b1] ++ d) (out ++ [])
          rw [List.append_nil]
          exact drainF_congr f2 ([b0, b1] ++ d).length ([b0, b1] ++ d) out h2
            (Nat.le_refl _)
      | b0 :: b1 :: b2 :: r =>
          by_cases hs : r.length < ((b0 * 256 + b1) &&& 32767)
          · show drainF f2 (b0 :: b1 :: b2 :: (r ++ d)) out = _
            rw [show drainF (f + 1) (b0 :: b1 :: b2 :: r) [] =
              (b0 :: b1 :: b2 :: r, []) by rw [drainF, if_pos hs]]
            show drainF f2 (b0 :: b1 :: b2 :: (r ++ d)) out =
              drainF (b0 :: b1 :: b2 :: (r ++ d)).length
                (b0 :: b1 :: b2 :: (r ++ d)) (out ++ [])
            rw [List.append_nil]
            exact drainF_congr f2 _ _ out (by simpa using h2) (Nat.le_refl _)
          · obtain ⟨g, rfl⟩ : ∃ g, f2 = g + 1 :=
              ⟨f2 - 1, by simp only [List.length_append, List.length_cons] at h2; omega⟩
            show drainF (g + 1) (b0 :: b1 :: b2 :: (r ++ d)) out = _
            rw [show drainF (f + 1) (b0 :: b1 :: b2 :: r) [] =
              drainF f (r.drop ((b0 * 256 + b1) &&& 32767))
                [(b2, r.take ((b0 * 256 + b1) &&& 32767))] by
              rw [drainF, if_neg hs]; rfl]
            rw [drainF]
            have hsd : ¬((r ++ d).length < ((b0 * 256 + b1) &&& 32767)) := by
              simp only [List.length_append]
              omega
            rw [if_neg hsd]
            rw [List.take_append_of_le_length (Nat.le_of_not_lt hs),
              List.drop_append_of_le_length (Nat.le_of_not_lt hs)]
            have hlen1 : (r.drop ((b0 * 256 + b1) &&& 32767)).length ≤ f := by
              simp only [List.length_drop]
              simp only [List.length_cons] at h1
              omega
            have hlen2 : ((r.drop ((b0 * 256 + b1) &&& 32767)) ++ d).length ≤ g := by
              simp only [List.length_append, List.length_drop]
              simp only [List.length_append, List.length_cons] at h2
              omega
            rw [ih (r.drop ((b0 * 256 + b1) &&& 32767)) g
              (out ++ [(b2, r.take ((b0 * 256 + b1) &&& 32767))]) hlen1 hlen2]
            rw [drainF_out f (r.drop ((b0 * 256 + b1) &&& 32767))
              [(b2, r.take ((b0 * 256 + b1) &&& 32767))]]
            simp

theorem feedData_stuck (buf data : List Nat) :
    stuckBuf (feedData buf data).1 = true := by
  rw [feedData]
  exact drainF_stuck _ _ _ (by simp)

theorem feedData_nil_of_stuck (buf : List Nat) (h : stuckBuf buf = true) :
    feedData buf [] = (buf, []) := by
  rw [feedData, List.append_nil]
  simp only [List.length_nil, Nat.add_zero]
  match buf, h with
  | [], _ => rfl
  | [b0], _ => rfl
  | [b0, b1], _ => rfl
  | b0 :: b1 :: b2 :: r, h =>
      have hs : r.length < ((b0 * 256 + b1) &&& 32767) := by
        simpa [stuckBuf] using h
      obtain ⟨g, hg⟩ : ∃ g, (b0 :: b1 :: b2 :: r).length = g + 1 :=
        ⟨r.length + 2, by simp⟩
      rw [hg, drainF, if_pos hs]

theorem feedData_append (buf c e : List Nat) :
    feedData buf (c ++ e) =
      ((feedData (feedData buf c).1 e).1,
        (feedData buf c).2 ++ (feedData (feedData buf c).1 e).2) := by
  have h1 : feedData buf c = drainF ((buf ++ c).length) (buf ++ c) [] := by
    rw [feedData]
    exact drainF_congr _ _ _ _ (by simp) (by simp)
  have h2 : feedData buf (c ++ e) =
      drainF ((buf ++ c ++ e).length) (buf ++ c ++ e) [] := by
    rw [feedData]
    rw [show buf ++ (c ++ e) = buf ++ c ++ e from (List.append_assoc _ _ _).symm]
    exact drainF_congr _ _ _ _ (by simp) (by simp)
  rw [h2, drainF_append e ((buf ++ c).length) (buf ++ c)
    ((buf ++ c ++ e).length) [] (Nat.le_refl _) (Nat.le_refl _)]
  rw [← h1]
  rw [drainF_out]
  have h3 : feedData (feedData buf c).1 e =
      drainF (((feedData buf c).1 ++ e).length) ((feedData buf c).1 ++ e) [] := by
    rw [feedData]
    exact drainF_congr _ _ _ _ (by simp) (by simp)
  rw [← h3]
  simp

theorem feedAll_go : ∀ chunks buf out, stuckBuf buf = true →
    List.foldl (fun s c =>
      let r := feedData s.1 c
      (r.1, s.2 ++ r.2)) (buf, out) chunks =
    ((feedData buf chunks.join).1, out ++ (feedData buf chunks.join).2) := by
  intro chunks
  induction chunks with
  | nil =>
      intro buf out h
      rw [List.foldl_nil, show ([] : List (List Nat)).join = [] from rfl,
        feedData_nil_of_stuck buf h]
      simp
  | cons c cs ih =>
      intro buf out h
      rw [List.foldl_cons]
      show List.foldl _ ((feedData buf c).1, out ++ (feedData buf c).2) cs = _
      rw [ih _ _ (feedData_stuck buf c)]
      rw [show (c :: cs).join = c ++ cs.join from rfl]
      rw [feedData_append buf c cs.join]
      simp

/-- C9: the incremental push-frame parser is chunking-invariant — feeding
any partition of a byte stream chunk by chunk through
`_on_data_received` emits exactly the packets, in exactly the order, of
feeding the whole stream at once, with the same final buffer; and the
bytes of an incomplete trailing frame always stay buffered (the final
buffer never holds a complete frame, so nothing is dropped or delivered
twice). -/
theorem C9_chunking_invariant (chunks : List (List Nat)) :
    feedAll chunks = feedData [] chunks.join ∧
    stuckBuf (feedAll chunks).1 = true := by
  have h := feedAll_go chunks [] [] rfl
  constructor
  · rw [feedAll, h]
    simp
  · rw [feedAll, h]
    exact feedData_stuck _ _

end Linepy
